import Mathlib

/-!
# Verification of the 8-puzzle A* solver (`src/final.py`)

Shallow embedding of the solver core of `final.py`:
`PuzzleState` (`__init__`, `find_empty`, `is_goal`, `neighbors`, `__eq__`,
`__lt__`, `__hash__`), `manhattan_distance`, `as_algo_solve` (A* over a
CPython `heapq` priority queue) and `reconstruct_path`.

Modelling notes:
* Boards are `List (List Int)`, mirroring Python's list-of-lists of ints.
* Python raises `IndexError` on out-of-range indexing; all claims concern
  3×3 boards, where the total `getD`/`getElem?` accessors used here agree
  with Python exactly.
* `PuzzleState.__hash__` is `hash(str(self.board))`.  `str` is injective on
  boards, so the visited set is modelled as a set of boards (canonical
  serialization), the standard collision-free model of a Python hash set.
* `heapq` is embedded operation-by-operation from CPython's `heapq.py`
  (`heappush`, `heappop`, `_siftdown`, `_siftup`), including the exact
  tuple/`PuzzleState.__lt__` comparison semantics.
* The `while` loop of `as_algo_solve` is embedded with explicit fuel; `none`
  means "fuel exhausted" and `some r` means the Python call returns `r`
  (`r = none` is Python's `return None`, `r = some path` a returned path).
-/

abbrev Board := List (List Int)

/-- The goal configuration `[[0, 1, 2], [3, 4, 5], [6, 7, 8]]`. -/
def goalBoard : Board := [[0, 1, 2], [3, 4, 5], [6, 7, 8]]

/-- `board[i][j]` as an optional value (`none` iff out of range). -/
def cell? (b : Board) (i j : Nat) : Option Int := b[i]?.bind fun r => r[j]?

/-- `PuzzleState`: a board, the move count `moves`, and the predecessor
`prev` (`root` for `prev is None`, `step` for a present predecessor).
The Python constructor also caches `empty_pos = find_empty(board)`;
since the cache is a pure function of the board it is represented by
`findEmpty` below rather than by a field. -/
inductive PState : Type where
  | root (board : Board) (moves : Nat)
  | step (board : Board) (moves : Nat) (prev : PState)
deriving DecidableEq, Inhabited

def PState.board : PState → Board
  | .root b _ => b
  | .step b _ _ => b

def PState.moves : PState → Nat
  | .root _ m => m
  | .step _ m _ => m

def PState.prev : PState → Option PState
  | .root _ _ => none
  | .step _ _ p => some p

/-- `PuzzleState(board, moves=0, prev=None)`. -/
def PState.mk' (b : Board) (m : Nat) (p : Option PState) : PState :=
  match p with
  | none => .root b m
  | some q => .step b m q

/-- `find_empty`: first `(i, j)` with `i, j ∈ range(3)` and `board[i][j] == 0`,
in row-major order; `None` when no 0 is present. -/
def findEmpty (b : Board) : Option (Nat × Nat) :=
  (List.range 3).findSome? fun i =>
    (List.range 3).findSome? fun j =>
      if cell? b i j = some 0 then some (i, j) else none

/-- `is_goal`: `self.board == [[0, 1, 2], [3, 4, 5], [6, 7, 8]]`. -/
def PState.is_goal (s : PState) : Bool := s.board == goalBoard

/-- Write `v` at position `(i, j)` (no-op out of range, where Python raises). -/
def setCell (b : Board) (i j : Nat) (v : Int) : Board :=
  b.set i ((b.getD i []).set j v)

/-- The simultaneous swap
`new_board[x][y], new_board[nx][ny] = new_board[nx][ny], new_board[x][y]`
performed on a fresh copy of the board. -/
def swapCells (b : Board) (x y nx ny : Nat) : Board :=
  setCell (setCell b x y ((b.getD nx []).getD ny 0)) nx ny ((b.getD x []).getD y 0)

/-- The direction list `[(-1, 0), (1, 0), (0, -1), (0, 1)]` (up, down, left, right). -/
def directions : List (Int × Int) := [(-1, 0), (1, 0), (0, -1), (0, 1)]

/-- `neighbors`: for each direction applied to the empty position, if the new
position is inside the 3×3 grid, a new `PuzzleState` with the empty tile and
the target tile swapped, `moves + 1`, and `prev = self`.  (Python unpacks
`x, y = self.empty_pos`; a board with no 0 would raise `TypeError`, which no
claim exercises, so that case yields `[]` here.) -/
def PState.neighbors (s : PState) : List PState :=
  match findEmpty s.board with
  | none => []
  | some (x, y) =>
    directions.filterMap fun d =>
      let nx : Int := (x : Int) + d.1
      let ny : Int := (y : Int) + d.2
      if 0 ≤ nx ∧ nx < 3 ∧ 0 ≤ ny ∧ ny < 3 then
        some (PState.mk' (swapCells s.board x y nx.toNat ny.toNat) (s.moves + 1) (some s))
      else none

/-- `__eq__`: `self.board == other.board`. -/
def pyEq (s t : PState) : Bool := s.board == t.board

/-- `__lt__`: `self.moves < other.moves`. -/
def pyLt (s t : PState) : Bool := s.moves < t.moves

/-- The canonical visited-set key, modelling `hash(str(self.board))`
(`str` is injective on boards, so the board itself is the key). -/
def boardKey (s : PState) : Board := s.board

/-- `manhattan_distance`: sum over the 3×3 grid of
`abs(i - value // 3) + abs(j - value % 3)` for non-zero values
(Python `//` is floor division `Int.fdiv`, `%` is `Int.emod`). -/
def manhattan_distance (s : PState) : Int :=
  ((List.range 3).map fun i =>
    ((List.range 3).map fun j =>
      match cell? s.board i j with
      | some value =>
          if value ≠ 0 then
            |(i : Int) - value.fdiv 3| + |(j : Int) - value.emod 3|
          else 0
      | none => 0).sum).sum

/-! ## CPython `heapq`

A frontier entry is the tuple `(cost, state)`.  Tuple comparison first tests
`cost == cost'`; on a tie it falls back to `PuzzleState.__eq__` (board
equality) and then `PuzzleState.__lt__` (`moves <`). -/

abbrev Entry := Int × PState

/-- Python `(c, s) < (c', s')` for frontier entries. -/
def entryLt (a b : Entry) : Bool :=
  if a.1 = b.1 then
    if a.2.board = b.2.board then false else pyLt a.2 b.2
  else decide (a.1 < b.1)

abbrev Heap := List Entry

/-- `heap[i]` (in-range in every reachable call; Python raises otherwise). -/
def hget (h : Heap) (i : Nat) : Entry := h.getD i ((0 : Int), PState.root [] 0)

/-- CPython `heapq._siftdown(heap, startpos, pos)` with `newitem = heap[pos]`
passed explicitly (the slot's stale content is never read).  `pos` strictly
decreases on every loop iteration, so the loop runs at most `pos` times; the
explicit `fuel` argument (instantiated with `pos` at every call site, see
`heappush` and `siftup`) makes the recursion structural, which keeps the
function kernel-computable without changing its behaviour. -/
def siftdown : Nat → Heap → Nat → Nat → Entry → Heap
  | 0, heap, _, pos, newitem => heap.set pos newitem
  | fuel + 1, heap, startpos, pos, newitem =>
    if startpos < pos then
      let parentpos := (pos - 1) / 2
      let parent := hget heap parentpos
      if entryLt newitem parent then
        siftdown fuel (heap.set pos parent) startpos parentpos newitem
      else heap.set pos newitem
    else heap.set pos newitem

/-- CPython `heapq._siftup(heap, pos)` main loop (`endpos = len(heap)`),
followed by the trailing `_siftdown` call.  `pos` strictly increases while
staying below `endpos`, so the loop runs at most `endpos - pos` times; `fuel`
is instantiated with `endpos` at the call site in `heappop`. -/
def siftup : Nat → Heap → Nat → Nat → Nat → Entry → Heap
  | 0, heap, _, startpos, pos, newitem => siftdown pos heap startpos pos newitem
  | fuel + 1, heap, endpos, startpos, pos, newitem =>
    if 2 * pos + 1 < endpos then
      let childpos := 2 * pos + 1
      let rightpos := childpos + 1
      let childpos :=
        if rightpos < endpos ∧ ¬ entryLt (hget heap childpos) (hget heap rightpos) then rightpos
        else childpos
      siftup fuel (heap.set pos (hget heap childpos)) endpos startpos childpos newitem
    else siftdown pos heap startpos pos newitem

/-- CPython `heapq.heappush`. -/
def heappush (heap : Heap) (item : Entry) : Heap :=
  siftdown heap.length (heap ++ [item]) 0 heap.length item

/-- CPython `heapq.heappop` (`none` on the empty heap, where Python raises;
`as_algo_solve` only pops under `while priority_queue`). -/
def heappop (heap : Heap) : Option (Entry × Heap) :=
  match heap.getLast? with
  | none => none
  | some lastelt =>
    let heap := heap.dropLast
    if heap.length ≠ 0 then
      some (hget heap 0, siftup heap.length (heap.set 0 lastelt) heap.length 0 0 lastelt)
    else
      some (lastelt, heap)

/-! ## `as_algo_solve` and `reconstruct_path` -/

/-- `reconstruct_path`: follow `prev` collecting boards, then reverse, so the
result runs from the initial state's board to `state.board`. -/
def reconstruct_path : PState → List Board
  | .root b _ => [b]
  | .step b _ p => reconstruct_path p ++ [b]

/-- One visited-set insertion, `visited.add(hash(current))`. -/
def visitAdd (visited : List Board) (b : Board) : List Board :=
  if b ∈ visited then visited else b :: visited

/-- The successor-push phase of one loop iteration: for each neighbor whose
key is not in `visited`, push `(neighbor.moves + manhattan_distance(neighbor),
neighbor)`. -/
def pushNeighbors (visited : List Board) (pq : Heap) (current : PState) : Heap :=
  current.neighbors.foldl
    (fun pq neighbor =>
      if neighbor.board ∈ visited then pq
      else heappush pq ((neighbor.moves : Int) + manhattan_distance neighbor, neighbor))
    pq

/-- The `while priority_queue:` loop of `as_algo_solve`, with fuel.
`none` = fuel exhausted; `some none` = Python's `return None`;
`some (some p)` = Python returns the reconstructed path `p`. -/
def solveLoop : Nat → Heap → List Board → Option (Option (List Board))
  | 0, _, _ => none
  | n + 1, pq, visited =>
    match heappop pq with
    | none => some none
    | some ((_, current), pq) =>
      if current.is_goal then some (some (reconstruct_path current))
      else
        let visited := visitAdd visited current.board
        solveLoop n (pushNeighbors visited pq current) visited

/-- The frontier after `heappush(priority_queue, (0, initial_state))`. -/
def initialFrontier (initial : PState) : Heap := heappush [] (0, initial)

/-- `as_algo_solve(initial_state)`, with fuel for the `while` loop. -/
def as_algo_solve (fuel : Nat) (initial : PState) : Option (Option (List Board)) :=
  solveLoop fuel (initialFrontier initial) []

/-! ## Spec-side notions used to state the claims -/

/-- The board must be a 3×3 grid containing each of 0..8 exactly once
(the spec's validity requirement for boards). -/
def validBoard (b : Board) : Bool :=
  b.length = 3 && b.all (fun r => r.length = 3) &&
    (List.range 9).all (fun v => b.flatten.count (v : Int) = 1)

/-- The boards obtained from `b` by one legal move (successor boards;
`neighbors` depends only on the board, not on `moves`/`prev`). -/
def moveBoards (b : Board) : List Board :=
  (PState.root b 0).neighbors.map PState.board

/-- `b'` follows `b` by one single-tile move. -/
def MoveStep (b b' : Board) : Prop := b' ∈ moveBoards b

instance (b b' : Board) : Decidable (MoveStep b b') := by
  unfold MoveStep; infer_instance

/-- `bs` is a solution path: it starts at `B`, ends at the goal board, and
consecutive boards differ by one legal move.  A path with `n + 1` boards
performs `n` moves. -/
def IsSolution (B : Board) (bs : List Board) : Prop :=
  bs.head? = some B ∧ bs.getLast? = some goalBoard ∧ bs.Chain' MoveStep

instance (B : Board) (bs : List Board) : Decidable (IsSolution B bs) := by
  unfold IsSolution; infer_instance

/-- `k` is the true minimum number of single-tile moves from `B` to the goal
board: some solution path does `k` moves and none does fewer. -/
def MinMoves (B : Board) (k : Nat) : Prop :=
  (∃ bs, IsSolution B bs ∧ bs.length = k + 1) ∧
    ∀ bs, IsSolution B bs → k + 1 ≤ bs.length

/-- Well-formed predecessor chain: the root has `moves = 0` and every link
increments `moves` by one — exactly the shape `as_algo_solve` builds from
`PuzzleState(board)` via `neighbors`. -/
def WfChain : PState → Prop
  | .root _ m => m = 0
  | .step _ m p => m = p.moves + 1 ∧ WfChain p

instance : ∀ s : PState, Decidable (WfChain s)
  | .root _ m => by unfold WfChain; infer_instance
  | .step _ m p =>
    have := instDecidableWfChain p
    by unfold WfChain; infer_instance

/-- The initial state a predecessor chain starts from. -/
def chainRoot : PState → PState
  | .root b m => .root b m
  | .step _ _ p => chainRoot p

/-! ## Basic facts about the state model -/

@[simp] theorem PState.board_mk' (b : Board) (m : Nat) (p : Option PState) :
    (PState.mk' b m p).board = b := by cases p <;> rfl

@[simp] theorem PState.moves_mk' (b : Board) (m : Nat) (p : Option PState) :
    (PState.mk' b m p).moves = m := by cases p <;> rfl

@[simp] theorem PState.prev_mk' (b : Board) (m : Nat) (p : Option PState) :
    (PState.mk' b m p).prev = p := by cases p <;> rfl

/-- A successful `find_empty` returns in-range coordinates of a 0 cell. -/
theorem findEmpty_spec {b : Board} {x y : Nat} (h : findEmpty b = some (x, y)) :
    x < 3 ∧ y < 3 ∧ cell? b x y = some 0 := by
  unfold findEmpty at h
  obtain ⟨i, hi, h⟩ := List.exists_of_findSome?_eq_some h
  obtain ⟨j, hj, h⟩ := List.exists_of_findSome?_eq_some h
  rw [List.mem_range] at hi hj
  split at h
  · rename_i hc
    obtain ⟨rfl, rfl⟩ := Prod.mk.injEq .. ▸ Option.some.injEq .. ▸ h
    exact ⟨hi, hj, hc⟩
  · exact absurd h (by simp)

theorem reconstruct_path_ne_nil (s : PState) : reconstruct_path s ≠ [] := by
  cases s <;> simp [reconstruct_path]

/-- The length, first and last board of a well-formed predecessor chain. -/
theorem reconstruct_path_wf (g : PState) (h : WfChain g) :
    (reconstruct_path g).length = g.moves + 1 ∧
      (reconstruct_path g).head? = some (chainRoot g).board ∧
      (chainRoot g).moves = 0 ∧ (chainRoot g).prev = none ∧
      (reconstruct_path g).getLast? = some g.board := by
  induction g with
  | root b m =>
    obtain rfl : m = 0 := h
    simp [reconstruct_path, chainRoot, PState.board, PState.moves, PState.prev]
  | step b m p ih =>
    obtain ⟨rfl, hp⟩ := h
    obtain ⟨h1, h2, h3, h4, h5⟩ := ih hp
    refine ⟨?_, ?_, h3, h4, ?_⟩
    · simp [reconstruct_path, h1, PState.moves]
    · simpa [reconstruct_path, chainRoot, List.head?_append,
        Option.or_eq_some] using Or.inl h2
    · simp [reconstruct_path, PState.board]

/-! ## C10: construction performs no validation -/

/-- A 3×3 all-ones board: no 0 cell, duplicated values, values missing. -/
def noZeroBoard : Board := [[1, 1, 1], [1, 1, 1], [1, 1, 1]]

/-- C10: `PuzzleState.__init__` performs no permutation validation — for every
board (3×3 or otherwise) it produces a state carrying exactly the given
`board`, `moves` and `prev` without signalling any error; and when the board
has no 0 among its 3×3 cells, the cached empty position (`find_empty`) is
`None`. -/
theorem c10_no_validation (b : Board) (m : Nat) (p : Option PState) :
    ((PState.mk' b m p).board = b ∧ (PState.mk' b m p).moves = m ∧
      (PState.mk' b m p).prev = p) ∧
    ((∀ i j, i < 3 → j < 3 → cell? b i j ≠ some 0) → findEmpty b = none) := by
  refine ⟨⟨by simp, by simp, by simp⟩, fun h => ?_⟩
  unfold findEmpty
  rw [List.findSome?_eq_none_iff]
  intro i hi
  rw [List.findSome?_eq_none_iff]
  intro j hj
  rw [List.mem_range] at hi hj
  simp [h i j hi hj]

/-- C10 witness: the all-ones board is accepted and its empty position is `None`. -/
theorem c10_no_validation_witness :
    ((PState.mk' noZeroBoard 0 none).board = noZeroBoard ∧
      (PState.mk' noZeroBoard 0 none).moves = 0 ∧
      (PState.mk' noZeroBoard 0 none).prev = none) ∧
    findEmpty noZeroBoard = none :=
  ⟨(c10_no_validation noZeroBoard 0 none).1,
    (c10_no_validation noZeroBoard 0 none).2
      (fun i j hi hj => (by decide : ∀ i < 3, ∀ j < 3, cell? noZeroBoard i j ≠ some 0) i hi j hj)⟩

/-! ## C2: the spec's `InvalidBoardError` does not exist in the code -/

/-- A board with a duplicated 1 and no 0: not a permutation of 0..8. -/
def dupBoard : Board := [[1, 1, 2], [3, 4, 5], [6, 7, 8]]

/-- C2 counterexample: constructing a state from a board that is missing a
value and contains a duplicate does NOT fail — a state with that exact board
is produced (the constructor is total; no `InvalidBoardError` is raised
anywhere in the code), refuting the claim that no State is produced for a
non-permutation board. -/
theorem c2_counterexample :
    validBoard dupBoard = false ∧
      (PState.mk' dupBoard 0 none).board = dupBoard ∧
      (PState.mk' dupBoard 0 none).moves = 0 ∧
      (PState.mk' dupBoard 0 none).prev = none := by decide

/-! ## C8: equality and the visited-set key are functions of the board alone -/

/-- C8: `__eq__` holds iff the boards are equal, independently of
`moves`/`prev`; the canonical key is a function of the board alone and is
injective, so two independently constructed states with the same board have
the same key and hence collide in any visited set of keys. -/
theorem c8_equality_board_only :
    (∀ s t : PState, pyEq s t = true ↔ s.board = t.board) ∧
    (∀ (b : Board) (m₁ m₂ : Nat) (p₁ p₂ : Option PState),
      pyEq (PState.mk' b m₁ p₁) (PState.mk' b m₂ p₂) = true ∧
        boardKey (PState.mk' b m₁ p₁) = boardKey (PState.mk' b m₂ p₂)) ∧
    (∀ s t : PState, boardKey s = boardKey t ↔ s.board = t.board) ∧
    (∀ (s t : PState) (visited : List Board), s.board = t.board →
      (boardKey s ∈ visited ↔ boardKey t ∈ visited)) := by
  refine ⟨fun s t => ?_, fun b m₁ m₂ p₁ p₂ => ⟨?_, ?_⟩, fun s t => ?_,
    fun s t visited h => ?_⟩ <;>
    simp [pyEq, boardKey, *]

/-- C8 witness: two states with the same board but different `moves` and
`prev` are `__eq__`-equal, share the canonical key, and collide in a
one-element visited set containing that key. -/
theorem c8_equality_board_only_witness :
    pyEq (PState.mk' goalBoard 0 none) (PState.mk' goalBoard 7 (some (PState.root [] 1))) = true ∧
      boardKey (PState.mk' goalBoard 0 none) ∈ [goalBoard] ∧
      (boardKey (PState.mk' goalBoard 0 none) ∈ [goalBoard] ↔
        boardKey (PState.mk' goalBoard 7 (some (PState.root [] 1))) ∈ [goalBoard]) :=
  ⟨(c8_equality_board_only.2.1 goalBoard 0 7 none (some (PState.root [] 1))).1,
    by decide,
    c8_equality_board_only.2.2.2 _ _ [goalBoard] (by decide)⟩

/-! ## C9: the frontier seed has priority 0, not `h(initial)` -/

/-- A board one move away from the goal; its Manhattan distance is 1. -/
def oneMoveBoard : Board := [[1, 0, 2], [3, 4, 5], [6, 7, 8]]

/-- C9 counterexample: `as_algo_solve` seeds the frontier with
`heappush(priority_queue, (0, initial_state))` — a single entry of priority
`0` — even though `h(initial) = manhattan_distance(initial) = 1 ≠ 0` for the
initial board `[[1,0,2],[3,4,5],[6,7,8]]`, refuting the claim that the seed
priority equals `h(initial)`. -/
theorem c9_counterexample :
    initialFrontier (PState.root oneMoveBoard 0) = [(0, PState.root oneMoveBoard 0)] ∧
      manhattan_distance (PState.root oneMoveBoard 0) = 1 ∧
      ((0 : Int), PState.root oneMoveBoard 0).1 ≠
        manhattan_distance (PState.root oneMoveBoard 0) := by decide

/-- C9 amended: `solve` seeds the frontier with exactly one entry for the
initial state, and that entry's priority is the constant `0` (not
`g + h = manhattan_distance(initial)`).  As the seed is the only entry it is
popped first regardless, so the discrepancy does not change the search. -/
theorem c9_amended_seed_priority_zero (initial : PState) :
    initialFrontier initial = [((0 : Int), initial)] := rfl

/-! ## C7: `reconstruct_path` length equals the chain length, which equals
`moves + 1` only on well-formed chains -/

/-- A state whose `moves` field (5) disagrees with its predecessor chain
(one link down to an initial state with `moves = 0`, `prev = None`). -/
def skewedChain : PState := PState.step goalBoard 5 (PState.root oneMoveBoard 0)

/-- C7 counterexample: `skewedChain`'s predecessor chain ends at an initial
state with `moves = 0` and no predecessor, and `reconstruct_path` returns the
chain's boards first-to-last as claimed — but its length is 2, not
`moves + 1 = 6`: the claimed length equation fails for states whose `moves`
fields do not count the chain. -/
theorem c7_counterexample :
    skewedChain.moves = 5 ∧
      (chainRoot skewedChain).moves = 0 ∧ (chainRoot skewedChain).prev = none ∧
      reconstruct_path skewedChain = [oneMoveBoard, goalBoard] ∧
      (reconstruct_path skewedChain).length ≠ skewedChain.moves + 1 := by decide

/-- C7 amended: for every state `g` whose predecessor chain is well-formed
(the root has `moves = 0`, each link increments `moves` — exactly the states
the solver builds), `reconstruct_path g` lists the chain's boards from the
initial state's board to `g.board` and has length `g.moves + 1`. -/
theorem c7_amended_reconstruct_path (g : PState) (h : WfChain g) :
    (reconstruct_path g).length = g.moves + 1 ∧
      (reconstruct_path g).head? = some (chainRoot g).board ∧
      (chainRoot g).moves = 0 ∧ (chainRoot g).prev = none ∧
      (reconstruct_path g).getLast? = some g.board :=
  reconstruct_path_wf g h

/-- C7 witness: a one-move well-formed chain reconstructs to a two-board
path from the initial board to the goal board. -/
theorem c7_amended_reconstruct_path_witness :
    (reconstruct_path (PState.step goalBoard 1 (PState.root oneMoveBoard 0))).length =
        (PState.step goalBoard 1 (PState.root oneMoveBoard 0)).moves + 1 ∧
      (reconstruct_path (PState.step goalBoard 1 (PState.root oneMoveBoard 0))).head? =
        some (chainRoot (PState.step goalBoard 1 (PState.root oneMoveBoard 0))).board ∧
      (chainRoot (PState.step goalBoard 1 (PState.root oneMoveBoard 0))).moves = 0 ∧
      (chainRoot (PState.step goalBoard 1 (PState.root oneMoveBoard 0))).prev = none ∧
      (reconstruct_path (PState.step goalBoard 1 (PState.root oneMoveBoard 0))).getLast? =
        some (PState.step goalBoard 1 (PState.root oneMoveBoard 0)).board :=
  c7_amended_reconstruct_path _ (by decide)

/-! ## C3: popped states are never skipped, so a board can be expanded twice -/

/-- `solveLoop` instrumented with the list of expanded boards: identical
control flow, but each non-goal popped state's board is appended to the
trace before its successors are generated. -/
def solveLoopT :
    Nat → Heap → List Board → List Board → Option ((Option (List Board)) × List Board)
  | 0, _, _, _ => none
  | n + 1, pq, visited, tr =>
    match heappop pq with
    | none => some (none, tr.reverse)
    | some ((_, current), pq) =>
      if current.is_goal then some (some (reconstruct_path current), tr.reverse)
      else
        let visited := visitAdd visited current.board
        solveLoopT n (pushNeighbors visited pq current) visited (current.board :: tr)

/-- The instrumentation changes nothing: projecting the trace away recovers
`solveLoop` exactly. -/
theorem solveLoopT_fst :
    ∀ (n : Nat) (pq : Heap) (visited tr : List Board),
      (solveLoopT n pq visited tr).map Prod.fst = solveLoop n pq visited := by
  intro n
  induction n with
  | zero => intro pq visited tr; rfl
  | succ n ih =>
    intro pq visited tr
    unfold solveLoopT solveLoop
    cases heappop pq with
    | none => rfl
    | some e =>
      obtain ⟨⟨c, current⟩, pq'⟩ := e
      by_cases hg : current.is_goal <;> simp [hg, ih]

/-- The boards expanded (popped and not skipped) during `as_algo_solve`. -/
def expansions (fuel : Nat) (B : Board) : List Board :=
  ((solveLoopT fuel (initialFrontier (PState.root B 0)) [] []).map Prod.snd).getD []

/-- A scramble seven moves from the goal. -/
def c3Board : Board := [[1, 5, 4], [3, 2, 0], [6, 7, 8]]

/-- C3 counterexample: solving `[[1,5,4],[3,2,0],[6,7,8]]` expands the board
`[[1,0,2],[3,4,5],[6,7,8]]` twice in one call (it is pushed via two different
parents before its first pop; on its second pop its key is already in
`visited`, yet the loop — which has no skip check — expands it again).  The
run still finishes normally with an 8-board path.  This refutes "each
distinct board is expanded at most once per call". -/
theorem c3_counterexample :
    (expansions 40 c3Board).count oneMoveBoard = 2 ∧
      (solveLoop 40 (initialFrontier (PState.root c3Board 0)) []).isSome = true := by
  constructor
  · decide
  · rw [← solveLoopT_fst 40 _ [] []]; decide

/-- C3 amended: the loop never skips a popped entry.  Even when the popped
state's canonical key is already in `visited`, the iteration generates its
successors and pushes the not-yet-visited ones exactly as for a first pop;
deduplication happens only at push time (successors whose key is in
`visited` are not pushed).  Consequently a board may be expanded more than
once per call (see the counterexample). -/
theorem c3_amended_no_skip (n : Nat) (pq pq' : Heap) (c : Int) (current : PState)
    (visited : List Board) (hpop : heappop pq = some ((c, current), pq'))
    (hng : current.is_goal = false) (hvis : current.board ∈ visited) :
    solveLoop (n + 1) pq visited =
      solveLoop n (pushNeighbors visited pq' current) visited := by
  simp [solveLoop, hpop, hng, visitAdd, hvis]

/-- C3 amended witness: a pop whose state is already visited still expands. -/
theorem c3_amended_no_skip_witness :
    solveLoop 1 [((0 : Int), PState.root oneMoveBoard 0)] [oneMoveBoard] =
      solveLoop 0 (pushNeighbors [oneMoveBoard] [] (PState.root oneMoveBoard 0)) [oneMoveBoard] :=
  c3_amended_no_skip 0 _ _ 0 _ _ (by decide) (by decide) (by decide)

/-! ## C5: successor generation -/

/-- The spec's successor boards, in the fixed direction order up, down,
left, right: for each direction applied to the empty position `(x, y)` whose
target stays within the 3×3 bounds, the board with the empty slot and the
target tile swapped. -/
def specNeighborBoards (b : Board) (x y : Nat) : List Board :=
  (if 1 ≤ x then [swapCells b x y (x - 1) y] else []) ++
    (if x + 1 < 3 then [swapCells b x y (x + 1) y] else []) ++
    (if 1 ≤ y then [swapCells b x y x (y - 1)] else []) ++
    (if y + 1 < 3 then [swapCells b x y x (y + 1)] else [])

/-- C5: for a state over a valid board with empty position `(x, y)`,
`neighbors` returns between 2 and 4 states; their boards are exactly the
in-bounds swaps in the fixed direction order up, down, left, right; and every
returned state has `moves` incremented by one and `prev` set to the current
state. -/
theorem c5_neighbors (s : PState) (x y : Nat)
    (_hv : validBoard s.board = true) (he : findEmpty s.board = some (x, y)) :
    (2 ≤ s.neighbors.length ∧ s.neighbors.length ≤ 4) ∧
      s.neighbors.map PState.board = specNeighborBoards s.board x y ∧
      ∀ t ∈ s.neighbors, t.moves = s.moves + 1 ∧ t.prev = some s := by
  obtain ⟨hx, hy, -⟩ := findEmpty_spec he
  have hn : s.neighbors = directions.filterMap fun d =>
      if 0 ≤ (x : Int) + d.1 ∧ (x : Int) + d.1 < 3 ∧ 0 ≤ (y : Int) + d.2 ∧ (y : Int) + d.2 < 3 then
        some (PState.mk' (swapCells s.board x y ((x : Int) + d.1).toNat ((y : Int) + d.2).toNat)
          (s.moves + 1) (some s))
      else none := by
    unfold PState.neighbors
    rw [he]
  interval_cases x <;> interval_cases y <;>
    simp_all [directions, specNeighborBoards, PState.mk', PState.board, PState.moves,
      PState.prev, List.filterMap]

/-- C5 witness: the goal state (empty slot at the corner `(0, 0)`) has
exactly its two in-bounds successors, each with `moves + 1` and `prev` set. -/
theorem c5_neighbors_witness :
    (2 ≤ (PState.root goalBoard 0).neighbors.length ∧
        (PState.root goalBoard 0).neighbors.length ≤ 4) ∧
      (PState.root goalBoard 0).neighbors.map PState.board =
        specNeighborBoards (PState.root goalBoard 0).board 0 0 ∧
      ∀ t ∈ (PState.root goalBoard 0).neighbors,
        t.moves = (PState.root goalBoard 0).moves + 1 ∧
          t.prev = some (PState.root goalBoard 0) :=
  c5_neighbors (PState.root goalBoard 0) 0 0 (by decide) (by decide)


/-! ## C6: the Manhattan heuristic -/

/-- The contribution of the grid position `(i, j)` holding cell content `c`:
zero for the empty slot or a missing cell, otherwise the Manhattan distance
from `(i, j)` to the tile's target position `(v div 3, v mod 3)`. -/
def tileTerm (i j : Nat) (c : Option Int) : Int :=
  match c with
  | some v => if v ≠ 0 then |(i : Int) - v.fdiv 3| + |(j : Int) - v.emod 3| else 0
  | none => 0

/-- The spec's formula: the sum over all non-empty tiles of the 3×3 grid of
`|row - targetRow| + |col - targetCol|`, with `targetRow = v div 3` and
`targetCol = v mod 3`. -/
def specManhattan (b : Board) : Int :=
  ∑ p ∈ Finset.range 3 ×ˢ Finset.range 3, tileTerm p.1 p.2 (cell? b p.1 p.2)

/-- The code's row-by-row accumulation equals the spec's sum over tiles. -/
theorem manhattan_eq_spec (s : PState) : manhattan_distance s = specManhattan s.board := by
  rw [manhattan_distance, specManhattan, Finset.sum_product]
  simp [Finset.sum_range_succ, List.range_succ, tileTerm]
  ring

/-- `manhattan_distance` only reads the board. -/
theorem manhattan_congr {s t : PState} (h : s.board = t.board) :
    manhattan_distance s = manhattan_distance t := by
  unfold manhattan_distance
  rw [h]

theorem cellD_of_cell? {b : Board} {i j : Nat} {v : Int} (h : cell? b i j = some v) :
    (b.getD i []).getD j 0 = v := by
  obtain ⟨row, hb, hrow⟩ := Option.bind_eq_some.mp h
  simp [List.getD_eq_getElem?_getD, hb, hrow]

/-- Description of a single `setCell` at the `cell?` level (the written
position must exist, as witnessed by its current content). -/
theorem cell?_setCell {b : Board} {x y : Nat} {a : Int} (v : Int)
    (hxy : cell? b x y = some a) (i j : Nat) :
    cell? (setCell b x y v) i j = if i = x ∧ j = y then some v else cell? b i j := by
  obtain ⟨row, hb, hrow⟩ := Option.bind_eq_some.mp hxy
  have hx : x < b.length := by
    by_contra hc
    rw [List.getElem?_eq_none (by omega)] at hb
    exact absurd hb (by simp)
  have hy : y < row.length := by
    by_contra hc
    rw [List.getElem?_eq_none (by omega)] at hrow
    exact absurd hrow (by simp)
  have hgd : b.getD x [] = row := by simp [List.getD_eq_getElem?_getD, hb]
  unfold setCell cell?
  rw [hgd, List.getElem?_set]
  rcases eq_or_ne x i with rfl | hxi
  · rw [if_pos rfl, if_pos hx]
    simp only [Option.some_bind]
    rw [List.getElem?_set]
    rcases eq_or_ne y j with rfl | hyj
    · simp [hy]
    · simp [Ne.symm hyj, hyj, hb]
  · rw [if_neg hxi, if_neg (by tauto)]

/-- `swapCells` at the `cell?` level: `(nx, ny)` receives the value from
`(x, y)`, `(x, y)` that from `(nx, ny)`, every other cell is unchanged. -/
theorem cell?_swapCells {b : Board} {x y nx ny : Nat} {a v : Int}
    (hxy : cell? b x y = some a) (hnn : cell? b nx ny = some v) (i j : Nat) :
    cell? (swapCells b x y nx ny) i j =
      if i = nx ∧ j = ny then some a
      else if i = x ∧ j = y then some v
      else cell? b i j := by
  unfold swapCells
  rw [cellD_of_cell? hnn, cellD_of_cell? hxy]
  have h1 := cell?_setCell (b := b) v hxy
  have h2 : cell? (setCell b x y v) nx ny = some v := by
    rw [h1]
    split
    · rfl
    · exact hnn
  rw [cell?_setCell a h2 i j, h1 i j]

theorem tileTerm_zero (i j : Nat) : tileTerm i j (some 0) = 0 := by simp [tileTerm]

/-- Swapping the empty slot at `(x, y)` with the tile `v` at a different
position `(nx, ny)` changes the heuristic by the difference of that tile's
two contributions. -/
theorem specManhattan_swap {b : Board} {x y nx ny : Nat} {v : Int}
    (hx : x < 3) (hy : y < 3) (hnx : nx < 3) (hny : ny < 3)
    (hne : ¬(x = nx ∧ y = ny))
    (hxy : cell? b x y = some 0) (hnn : cell? b nx ny = some v) :
    specManhattan (swapCells b x y nx ny) - specManhattan b =
      tileTerm x y (some v) - tileTerm nx ny (some v) := by
  classical
  set s : Finset (Nat × Nat) := Finset.range 3 ×ˢ Finset.range 3 with hs
  have hp1 : (x, y) ∈ s := by simp [hs, Finset.mem_product, hx, hy]
  have hp2 : (nx, ny) ∈ s := by simp [hs, Finset.mem_product, hnx, hny]
  have hp12 : ((x, y) : Nat × Nat) ≠ (nx, ny) := by
    intro h
    exact hne ⟨congrArg Prod.fst h, congrArg Prod.snd h⟩
  have hp2' : (nx, ny) ∈ s.erase (x, y) := Finset.mem_erase.mpr ⟨Ne.symm hp12, hp2⟩
  have split2 : ∀ g : Nat × Nat → Int, ∑ p ∈ s, g p =
      g (x, y) + (g (nx, ny) + ∑ p ∈ (s.erase (x, y)).erase (nx, ny), g p) := by
    intro g
    rw [← Finset.add_sum_erase s g hp1, ← Finset.add_sum_erase _ g hp2']
  unfold specManhattan
  rw [← hs, split2, split2]
  have htail : ∀ p ∈ (s.erase (x, y)).erase (nx, ny),
      tileTerm p.1 p.2 (cell? (swapCells b x y nx ny) p.1 p.2) =
        tileTerm p.1 p.2 (cell? b p.1 p.2) := by
    intro p hp
    have h1 : p ≠ (nx, ny) := (Finset.mem_erase.mp hp).1
    have h2 : p ≠ (x, y) := (Finset.mem_erase.mp (Finset.mem_erase.mp hp).2).1
    rw [cell?_swapCells hxy hnn]
    rw [if_neg, if_neg]
    · intro h
      exact h2 (Prod.ext h.1 h.2)
    · intro h
      exact h1 (Prod.ext h.1 h.2)
  rw [Finset.sum_congr rfl htail]
  rw [cell?_swapCells hxy hnn x y, cell?_swapCells hxy hnn nx ny]
  rw [if_neg (by tauto), if_pos ⟨rfl, rfl⟩, if_pos ⟨rfl, rfl⟩]
  rw [tileTerm_zero, hxy, hnn, tileTerm_zero]
  ring

theorem tileTerm_nonneg (i j : Nat) (c : Option Int) : 0 ≤ tileTerm i j c := by
  unfold tileTerm
  cases c with
  | none => simp
  | some v =>
    dsimp only
    split
    · positivity
    · simp

/-- Moving one tile one step changes its contribution by at most 1. -/
theorem tileTerm_step (v : Int) (x y nx ny : Nat)
    (hadj : ((x : Int) - nx).natAbs + ((y : Int) - ny).natAbs = 1) :
    |tileTerm x y (some v) - tileTerm nx ny (some v)| ≤ 1 := by
  by_cases hv : v = 0
  · simp [tileTerm, hv]
  · have hred : ∀ i j : Nat, tileTerm i j (some v) =
        |(i : Int) - v.fdiv 3| + |(j : Int) - v.emod 3| := by
      intro i j
      simp [tileTerm, hv]
    rw [hred, hred]
    generalize v.fdiv 3 = tx
    generalize v.emod 3 = ty
    simp only [Int.abs_eq_natAbs]
    omega

theorem validBoard_parts {b : Board} (hv : validBoard b = true) :
    b.length = 3 ∧ (∀ r ∈ b, r.length = 3) ∧
      ∀ v : Nat, v < 9 → b.flatten.count (v : Int) = 1 := by
  simp only [validBoard, Bool.and_eq_true, List.all_eq_true, decide_eq_true_eq,
    List.mem_range] at hv
  exact ⟨hv.1.1, hv.1.2, hv.2⟩

/-- Every in-range position of a valid board holds a cell. -/
theorem shape_cell {b : Board} (h3 : b.length = 3) (hr : ∀ r ∈ b, r.length = 3)
    {i j : Nat} (hi : i < 3) (hj : j < 3) : ∃ v, cell? b i j = some v := by
  have hi' : i < b.length := by omega
  have hrow : (getElem b i hi').length = 3 := hr _ (List.getElem_mem hi')
  have hj' : j < (getElem b i hi').length := by omega
  refine ⟨getElem (getElem b i hi') j hj', ?_⟩
  unfold cell?
  rw [List.getElem?_eq_getElem hi']
  simp [List.getElem?_eq_getElem hj']

theorem validBoard_cell {b : Board} (hv : validBoard b = true) {i j : Nat}
    (hi : i < 3) (hj : j < 3) : ∃ v, cell? b i j = some v := by
  obtain ⟨h3, hr, -⟩ := validBoard_parts hv
  exact shape_cell h3 hr hi hj

/-- C2 amended: on 3×3 boards — three rows of three cells, the shape on
which `find_empty`'s fixed `range(3) × range(3)` scan stays in bounds, so
the `IndexError` it would raise on a smaller board cannot fire — construction
performs no content validation at all: every cell access of the cached
`empty_pos` scan succeeds, and for every such board, including one missing a
value or containing a duplicate, `__init__` succeeds and returns a state
wrapping exactly the given board, move count and predecessor; no
`InvalidBoardError` exists anywhere in the code. -/
theorem c2_amended_no_validation (b : Board) (m : Nat) (p : Option PState)
    (h3 : b.length = 3) (hr : ∀ r ∈ b, r.length = 3) :
    (∀ i, i < 3 → ∀ j, j < 3 → ∃ v, cell? b i j = some v) ∧
      (PState.mk' b m p).board = b ∧ (PState.mk' b m p).moves = m ∧
        (PState.mk' b m p).prev = p := by
  refine ⟨fun i hi j hj => shape_cell h3 hr hi hj, by simp⟩

/-- C2 amended witness: the duplicated-1 board is a 3×3 board with invalid
content, and the amended theorem applies to it. -/
theorem c2_amended_no_validation_witness :
    dupBoard.length = 3 ∧ (∀ r ∈ dupBoard, r.length = 3) ∧
      ((∀ i, i < 3 → ∀ j, j < 3 → ∃ v, cell? dupBoard i j = some v) ∧
        (PState.mk' dupBoard 0 none).board = dupBoard ∧
        (PState.mk' dupBoard 0 none).moves = 0 ∧
        (PState.mk' dupBoard 0 none).prev = none) :=
  ⟨by decide, by decide,
    c2_amended_no_validation dupBoard 0 none (by decide) (by decide)⟩

/-- Consistency of the heuristic over one move, from the board's 3×3 shape
alone: a successor's Manhattan distance differs from its parent's by at
most 1. -/
theorem manhattan_consistent_shape (s t : PState) (h3 : s.board.length = 3)
    (hrows : ∀ r ∈ s.board, r.length = 3)
    (ht : t ∈ s.neighbors) :
    |manhattan_distance s - manhattan_distance t| ≤ 1 := by
  unfold PState.neighbors at ht
  cases hfe : findEmpty s.board with
  | none => rw [hfe] at ht; simp at ht
  | some xy =>
    obtain ⟨x, y⟩ := xy
    rw [hfe] at ht
    obtain ⟨hx3, hy3, hxy⟩ := findEmpty_spec hfe
    rw [List.mem_filterMap] at ht
    obtain ⟨d, hd, hft⟩ := ht
    by_cases hc : 0 ≤ (x : Int) + d.1 ∧ (x : Int) + d.1 < 3 ∧ 0 ≤ (y : Int) + d.2 ∧ (y : Int) + d.2 < 3
    case neg => rw [if_neg hc] at hft; exact absurd hft (by simp)
    rw [if_pos hc] at hft
    obtain ⟨hc1, hc2, hc3, hc4⟩ := hc
    have hbt : t.board = swapCells s.board x y ((x : Int) + d.1).toNat ((y : Int) + d.2).toNat := by
      rw [← Option.some.inj hft]
      simp
    have e1 : ((((x : Int) + d.1).toNat : Nat) : Int) = (x : Int) + d.1 := Int.toNat_of_nonneg hc1
    have e2 : ((((y : Int) + d.2).toNat : Nat) : Int) = (y : Int) + d.2 := Int.toNat_of_nonneg hc3
    have hnx3 : ((x : Int) + d.1).toNat < 3 := by omega
    have hny3 : ((y : Int) + d.2).toNat < 3 := by omega
    have hadj : ((x : Int) - (((x : Int) + d.1).toNat : Nat)).natAbs +
        ((y : Int) - (((y : Int) + d.2).toNat : Nat)).natAbs = 1 := by
      fin_cases hd <;> simp only at e1 e2 <;> omega
    have hne : ¬(x = ((x : Int) + d.1).toNat ∧ y = ((y : Int) + d.2).toNat) := by
      rintro ⟨rfl1, rfl2⟩
      omega
    obtain ⟨v, hnn⟩ := shape_cell h3 hrows hnx3 hny3
    rw [manhattan_eq_spec s, manhattan_eq_spec t, hbt, abs_sub_comm,
      specManhattan_swap hx3 hy3 hnx3 hny3 hne hxy hnn]
    exact tileTerm_step v x y _ _ hadj

/-- Consistency for valid boards (the spec's phrasing). -/
theorem manhattan_consistent (s t : PState) (hv : validBoard s.board = true)
    (ht : t ∈ s.neighbors) :
    |manhattan_distance s - manhattan_distance t| ≤ 1 := by
  obtain ⟨h3, hr, -⟩ := validBoard_parts hv
  exact manhattan_consistent_shape s t h3 hr ht

/-- C6: `manhattan_distance` equals the spec's sum over non-empty tiles of
`|row - targetRow| + |col - targetCol|` with `targetRow = v div 3`,
`targetCol = v mod 3`; it is 0 on the goal board, non-negative on every
state, and satisfies `|h(s) - h(s')| ≤ 1` for every (valid) state `s` and
every successor `s'` of `s`. -/
theorem c6_manhattan_distance :
    (∀ s : PState, manhattan_distance s = specManhattan s.board) ∧
    (∀ s : PState, s.board = goalBoard → manhattan_distance s = 0) ∧
    (∀ s : PState, 0 ≤ manhattan_distance s) ∧
    (∀ s t : PState, validBoard s.board = true → t ∈ s.neighbors →
      |manhattan_distance s - manhattan_distance t| ≤ 1) := by
  refine ⟨manhattan_eq_spec, fun s hb => ?_, fun s => ?_, manhattan_consistent⟩
  · rw [manhattan_congr (t := PState.root goalBoard 0) hb]
    decide
  · rw [manhattan_eq_spec]
    exact Finset.sum_nonneg fun p _ => tileTerm_nonneg p.1 p.2 _

/-- C6 witness: concrete instances of all four parts — the formula at the
goal state, zero on the goal board, non-negativity, and consistency across
the move from `[[1,0,2],[3,4,5],[6,7,8]]` to `[[1,4,2],[3,0,5],[6,7,8]]`. -/
theorem c6_manhattan_distance_witness :
    manhattan_distance (PState.root goalBoard 0) =
        specManhattan (PState.root goalBoard 0).board ∧
      manhattan_distance (PState.root goalBoard 3) = 0 ∧
      0 ≤ manhattan_distance (PState.root oneMoveBoard 0) ∧
      |manhattan_distance (PState.root oneMoveBoard 0) -
          manhattan_distance
            (PState.step [[1, 4, 2], [3, 0, 5], [6, 7, 8]] 1 (PState.root oneMoveBoard 0))| ≤ 1 :=
  ⟨c6_manhattan_distance.1 _,
    c6_manhattan_distance.2.1 _ (by decide),
    c6_manhattan_distance.2.2.1 _,
    c6_manhattan_distance.2.2.2 _ _ (by decide) (by decide)⟩

/-! ## Multiset content of the heap operations

`heappush`/`heappop` rearrange the underlying list; the lemmas below
characterize them up to multiset equality, which is what the termination and
optimality arguments consume. -/

/-- Overwriting an in-range slot: as multisets, the old value is traded for
the new one. -/
theorem mset_set {α : Type} (l : List α) (n : Nat) (v d : α) (h : n < l.length) :
    (↑(l.set n v) : Multiset α) + {l.getD n d} = (↑l : Multiset α) + {v} := by
  induction l generalizing n with
  | nil => simp at h
  | cons a t ih =>
    cases n with
    | zero =>
      simp only [List.set_cons_zero, List.getD_cons_zero, ← Multiset.cons_coe,
        ← Multiset.singleton_add]
      abel
    | succ n =>
      have hn : n < t.length := by simpa using h
      simp only [List.set_cons_succ, List.getD_cons_succ, ← Multiset.cons_coe,
        ← Multiset.singleton_add, add_assoc]
      rw [ih n hn]

/-- The slot-exchange instance used for the heap: the default is immaterial. -/
theorem mset_set_entry (heap : Heap) (pos : Nat) (v : Entry) (h : pos < heap.length) :
    (↑(heap.set pos v) : Multiset Entry) + {hget heap pos} = (↑heap : Multiset Entry) + {v} := by
  unfold hget
  exact mset_set heap pos v _ h

/-- Chaining two slot exchanges and cancelling the intermediate value. -/
theorem mset_chain {X Hm H : Multiset Entry} {c i p : Entry}
    (step : X + {c} = Hm + {i}) (base : Hm + {p} = H + {c}) :
    X + {p} = H + {i} := by
  have h2 : X + {p} + {c} = H + {i} + {c} := by
    calc X + {p} + {c} = X + {c} + {p} := by abel
      _ = Hm + {i} + {p} := by rw [step]
      _ = Hm + {p} + {i} := by abel
      _ = H + {c} + {i} := by rw [base]
      _ = H + {i} + {c} := by abel
  exact add_right_cancel h2

theorem length_siftdown :
    ∀ (fuel : Nat) (heap : Heap) (startpos pos : Nat) (item : Entry),
      (siftdown fuel heap startpos pos item).length = heap.length := by
  intro fuel
  induction fuel with
  | zero => intro heap sp pos item; simp [siftdown]
  | succ fuel ih =>
    intro heap sp pos item
    unfold siftdown
    dsimp only
    split
    · split
      · rw [ih]; simp
      · simp
    · simp

theorem length_siftup :
    ∀ (fuel : Nat) (heap : Heap) (endpos startpos pos : Nat) (item : Entry),
      (siftup fuel heap endpos startpos pos item).length = heap.length := by
  intro fuel
  induction fuel with
  | zero => intro heap ep sp pos item; simp [siftup, length_siftdown]
  | succ fuel ih =>
    intro heap ep sp pos item
    unfold siftup
    dsimp only
    split
    · rw [ih]; simp
    · simp [length_siftdown]

/-- `hget` of a `set` list at a different index. -/
theorem hget_set_ne (heap : Heap) (i j : Nat) (v : Entry) (h : i ≠ j) :
    hget (heap.set i v) j = hget heap j := by
  unfold hget
  simp [List.getD_eq_getElem?_getD, List.getElem?_set, h]

theorem hget_set_self (heap : Heap) (i : Nat) (v : Entry) (h : i < heap.length) :
    hget (heap.set i v) i = v := by
  unfold hget
  simp [List.getD_eq_getElem?_getD, List.getElem?_set, h]

/-- `siftdown` keeps the multiset of slots: the stale content of `pos` is
replaced by `newitem`. -/
theorem mset_siftdown :
    ∀ (fuel : Nat) (heap : Heap) (startpos pos : Nat) (item : Entry), pos < heap.length →
      (↑(siftdown fuel heap startpos pos item) : Multiset Entry) + {hget heap pos} =
        (↑heap : Multiset Entry) + {item} := by
  intro fuel
  induction fuel with
  | zero =>
    intro heap sp pos item h
    simpa [siftdown] using mset_set_entry heap pos item h
  | succ fuel ih =>
    intro heap sp pos item h
    unfold siftdown
    dsimp only
    split
    · split
      · rename_i hlt _
        have hpp' : (pos - 1) / 2 < (heap.set pos (hget heap ((pos - 1) / 2))).length := by
          simp; omega
        have step := ih (heap.set pos (hget heap ((pos - 1) / 2))) sp ((pos - 1) / 2) item hpp'
        rw [hget_set_ne heap pos _ _ (by omega)] at step
        exact mset_chain step (mset_set_entry heap pos (hget heap ((pos - 1) / 2)) h)
      · exact mset_set_entry heap pos item h
    · exact mset_set_entry heap pos item h

/-- `siftup` likewise trades the stale content of `pos` for `newitem`. -/
theorem mset_siftup :
    ∀ (fuel : Nat) (heap : Heap) (endpos startpos pos : Nat) (item : Entry),
      pos < heap.length → endpos ≤ heap.length →
      (↑(siftup fuel heap endpos startpos pos item) : Multiset Entry) + {hget heap pos} =
        (↑heap : Multiset Entry) + {item} := by
  intro fuel
  induction fuel with
  | zero =>
    intro heap ep sp pos item h _
    simpa [siftup] using mset_siftdown pos heap sp pos item h
  | succ fuel ih =>
    intro heap ep sp pos item h hep
    unfold siftup
    dsimp only
    split
    · rename_i hchild
      set c : Nat := if 2 * pos + 1 + 1 < ep ∧
          ¬ entryLt (hget heap (2 * pos + 1)) (hget heap (2 * pos + 1 + 1)) = true then
          2 * pos + 1 + 1
        else 2 * pos + 1 with hc
      have hcpos : pos < c := by
        rw [hc]; split <;> omega
      have hclen : c < heap.length := by
        rw [hc]; split <;> omega
      have hclen' : c < (heap.set pos (hget heap c)).length := by simpa using hclen
      have step := ih (heap.set pos (hget heap c)) ep sp c item hclen' (by simpa using hep)
      rw [hget_set_ne heap pos c _ (by omega)] at step
      exact mset_chain step (mset_set_entry heap pos (hget heap c) h)
    · exact mset_siftdown pos heap sp pos item h

theorem heappush_length (heap : Heap) (item : Entry) :
    (heappush heap item).length = heap.length + 1 := by
  unfold heappush
  rw [length_siftdown]
  simp

/-- `heappush` adds exactly the pushed entry. -/
theorem heappush_mset (heap : Heap) (item : Entry) :
    (↑(heappush heap item) : Multiset Entry) = (↑heap : Multiset Entry) + {item} := by
  unfold heappush
  have hlen : heap.length < (heap ++ [item]).length := by simp
  have h := mset_siftdown heap.length (heap ++ [item]) 0 heap.length item hlen
  have hg : hget (heap ++ [item]) heap.length = item := by
    unfold hget
    simp [List.getD_eq_getElem?_getD, List.getElem?_concat_length]
  rw [hg] at h
  have hco : (↑(heap ++ [item]) : Multiset Entry) = (↑heap : Multiset Entry) + {item} := by
    rw [← Multiset.coe_add]
    rfl
  rw [hco] at h
  exact add_right_cancel h

/-- `heappop` removes exactly the returned entry. -/
theorem heappop_mset {heap rest : Heap} {e : Entry}
    (h : heappop heap = some (e, rest)) :
    (↑heap : Multiset Entry) = {e} + (↑rest : Multiset Entry) ∧
      rest.length + 1 = heap.length := by
  unfold heappop at h
  cases hl : heap.getLast? with
  | none => rw [hl] at h; exact absurd h (by simp)
  | some last =>
    rw [hl] at h
    have hne : heap ≠ [] := by
      intro hcon
      rw [hcon] at hl
      exact absurd hl (by simp)
    have hsplit : heap.dropLast ++ [heap.getLast hne] = heap :=
      List.dropLast_concat_getLast hne
    have hlast : heap.getLast hne = last := by
      have := List.getLast?_eq_getLast heap hne
      rw [hl] at this
      exact (Option.some.inj this).symm
    rw [hlast] at hsplit
    have hcoheap : (↑heap : Multiset Entry) =
        (↑heap.dropLast : Multiset Entry) + {last} := by
      conv_lhs => rw [← hsplit]
      rw [← Multiset.coe_add]
      rfl
    dsimp only at h
    by_cases hz : heap.dropLast.length ≠ 0
    · rw [if_pos hz] at h
      have hpair := Option.some.inj h
      have he : e = hget heap.dropLast 0 := (congrArg Prod.fst hpair).symm
      have hr : rest = siftup heap.dropLast.length (heap.dropLast.set 0 last)
          heap.dropLast.length 0 0 last := (congrArg Prod.snd hpair).symm
      have h0 : 0 < heap.dropLast.length := by omega
      have h0' : 0 < (heap.dropLast.set 0 last).length := by simpa using h0
      have hs := mset_siftup heap.dropLast.length (heap.dropLast.set 0 last)
        heap.dropLast.length 0 0 last h0' (by simp)
      rw [hget_set_self _ _ _ h0] at hs
      have hrest : (↑rest : Multiset Entry) = ↑(heap.dropLast.set 0 last) := by
        rw [hr]
        exact add_right_cancel hs
      have hset := mset_set_entry heap.dropLast 0 last h0
      constructor
      · rw [hcoheap, hrest, he]
        have := hset.symm
        calc (↑heap.dropLast : Multiset Entry) + {last}
            = (↑(heap.dropLast.set 0 last) : Multiset Entry) + {hget heap.dropLast 0} := hset.symm
          _ = {hget heap.dropLast 0} + (↑(heap.dropLast.set 0 last) : Multiset Entry) := by abel
      · have hlen2 : heap.length = heap.dropLast.length + 1 := by
          conv_lhs => rw [← hsplit]
          simp
        rw [hr, length_siftup]
        simp only [List.length_set]
        omega
    · rw [if_neg hz] at h
      have hpair := Option.some.inj h
      have he : e = last := (congrArg Prod.fst hpair).symm
      have hr : rest = heap.dropLast := (congrArg Prod.snd hpair).symm
      have hz' : heap.dropLast.length = 0 := by omega
      constructor
      · rw [hcoheap, he, hr]
        abel
      · rw [hr]
        have : heap.length = heap.dropLast.length + 1 := by
          rw [← hsplit]
          simp
        omega

/-! ## Structure of generated successors, and board-shape invariants -/

/-- Anatomy of a successor: it swaps the (in-range) empty position with an
adjacent in-range position, increments `moves`, and records its parent. -/
theorem neighbors_structure {s t : PState} (ht : t ∈ s.neighbors) :
    ∃ x y nx ny : Nat, findEmpty s.board = some (x, y) ∧
      x < 3 ∧ y < 3 ∧ nx < 3 ∧ ny < 3 ∧
      cell? s.board x y = some 0 ∧
      ((x : Int) - nx).natAbs + ((y : Int) - ny).natAbs = 1 ∧
      t.board = swapCells s.board x y nx ny ∧
      t.moves = s.moves + 1 ∧ t.prev = some s := by
  unfold PState.neighbors at ht
  cases hfe : findEmpty s.board with
  | none => rw [hfe] at ht; simp at ht
  | some xy =>
    obtain ⟨x, y⟩ := xy
    rw [hfe] at ht
    obtain ⟨hx3, hy3, hxy⟩ := findEmpty_spec hfe
    rw [List.mem_filterMap] at ht
    obtain ⟨d, hd, hft⟩ := ht
    by_cases hc : 0 ≤ (x : Int) + d.1 ∧ (x : Int) + d.1 < 3 ∧ 0 ≤ (y : Int) + d.2 ∧ (y : Int) + d.2 < 3
    case neg => rw [if_neg hc] at hft; exact absurd hft (by simp)
    rw [if_pos hc] at hft
    obtain ⟨hc1, hc2, hc3, hc4⟩ := hc
    have ht' := (Option.some.inj hft).symm
    have e1 : ((((x : Int) + d.1).toNat : Nat) : Int) = (x : Int) + d.1 := Int.toNat_of_nonneg hc1
    have e2 : ((((y : Int) + d.2).toNat : Nat) : Int) = (y : Int) + d.2 := Int.toNat_of_nonneg hc3
    refine ⟨x, y, ((x : Int) + d.1).toNat, ((y : Int) + d.2).toNat, rfl, hx3, hy3,
      by omega, by omega, hxy, ?_, ?_, ?_, ?_⟩
    · fin_cases hd <;> simp only at e1 e2 <;> omega
    · rw [ht']; simp
    · rw [ht']; simp
    · rw [ht']; simp

theorem neighbors_length_le (s : PState) : s.neighbors.length ≤ 4 := by
  unfold PState.neighbors
  cases findEmpty s.board with
  | none => simp
  | some xy =>
    obtain ⟨x, y⟩ := xy
    exact List.length_filterMap_le _ _

/-- Shape and cell-containment invariant relative to the cells of the
user-supplied initial board `B0`: boards met during the search are 3×3 and
all their values occur on `B0`. -/
def BoardOK (B0 b : Board) : Prop :=
  b.length = 3 ∧ (∀ r ∈ b, r.length = 3) ∧ ∀ r ∈ b, ∀ v ∈ r, v ∈ B0.flatten

theorem boardOK_cell {B0 b : Board} (hb : BoardOK B0 b) {i j : Nat}
    (hi : i < 3) (hj : j < 3) :
    (b.getD i []).getD j 0 ∈ B0.flatten ∧ (b.getD i []).length = 3 := by
  obtain ⟨h3, hr, hc⟩ := hb
  have hi' : i < b.length := by omega
  have hrow : b.getD i [] = getElem b i hi' := by
    simp [List.getD_eq_getElem?_getD, List.getElem?_eq_getElem hi']
  have hmem : getElem b i hi' ∈ b := List.getElem_mem hi'
  have hlen : (getElem b i hi').length = 3 := hr _ hmem
  have hj' : j < (getElem b i hi').length := by omega
  refine ⟨?_, by rw [hrow]; exact hlen⟩
  rw [hrow]
  have : (getElem b i hi').getD j 0 = getElem (getElem b i hi') j hj' := by
    simp [List.getD_eq_getElem?_getD, List.getElem?_eq_getElem hj']
  rw [this]
  exact hc _ hmem _ (List.getElem_mem hj')

theorem boardOK_setCell {B0 b : Board} (hb : BoardOK B0 b) {i j : Nat} {v : Int}
    (hi : i < 3) (hv : v ∈ B0.flatten) : BoardOK B0 (setCell b i j v) := by
  obtain ⟨h3, hr, hc⟩ := hb
  have hi' : i < b.length := by omega
  have hrow : b.getD i [] = getElem b i hi' := by
    simp [List.getD_eq_getElem?_getD, List.getElem?_eq_getElem hi']
  have hmemrow : getElem b i hi' ∈ b := List.getElem_mem hi'
  refine ⟨by simp [setCell, h3], ?_, ?_⟩
  · intro r hrmem
    rcases List.mem_or_eq_of_mem_set hrmem with h | rfl
    · exact hr _ h
    · rw [hrow]
      simp only [List.length_set]
      exact hr _ hmemrow
  · intro r hrmem w hw
    rcases List.mem_or_eq_of_mem_set hrmem with h | rfl
    · exact hc _ h _ hw
    · rw [hrow] at hw
      rcases List.mem_or_eq_of_mem_set hw with h | rfl
      · exact hc _ hmemrow _ h
      · exact hv

/-- `swapCells` of in-range positions preserves the invariant. -/
theorem boardOK_swap {B0 b : Board} (hb : BoardOK B0 b) {x y nx ny : Nat}
    (hx : x < 3) (hy : y < 3) (hnx : nx < 3) (hny : ny < 3) :
    BoardOK B0 (swapCells b x y nx ny) := by
  obtain ⟨hv1, -⟩ := boardOK_cell hb hnx hny
  obtain ⟨hv2, -⟩ := boardOK_cell hb hx hy
  have h1 : BoardOK B0 (setCell b x y ((b.getD nx []).getD ny 0)) := boardOK_setCell hb hx hv1
  have hrows : ∀ i : Nat, (setCell b x y ((b.getD nx []).getD ny 0)).getD i [] =
      (setCell b x y ((b.getD nx []).getD ny 0)).getD i [] := fun _ => rfl
  unfold swapCells
  exact boardOK_setCell h1 hnx (by
    have : (b.getD x []).getD y 0 ∈ B0.flatten := hv2
    exact this)

/-! ## A cardinality bound for the visited set -/

theorem list_len3 {α : Type} {l : List α} (h : l.length = 3) :
    ∃ a0 a1 a2, l = [a0, a1, a2] := by
  rcases l with _ | ⟨a0, _ | ⟨a1, _ | ⟨a2, _ | ⟨a3, t⟩⟩⟩⟩ <;>
    first
      | exact ⟨a0, a1, a2, rfl⟩
      | simp at h

/-- A 3×3 board destructured into its nine cells. -/
theorem shape_destruct {b : Board} (h3 : b.length = 3) (hr : ∀ r ∈ b, r.length = 3) :
    ∃ a0 a1 a2 a3 a4 a5 a6 a7 a8 : Int,
      b = [[a0, a1, a2], [a3, a4, a5], [a6, a7, a8]] := by
  obtain ⟨r0, r1, r2, rfl⟩ := list_len3 h3
  obtain ⟨a0, a1, a2, rfl⟩ := list_len3 (hr r0 (by simp))
  obtain ⟨a3, a4, a5, rfl⟩ := list_len3 (hr r1 (by simp))
  obtain ⟨a6, a7, a8, rfl⟩ := list_len3 (hr r2 (by simp))
  exact ⟨a0, a1, a2, a3, a4, a5, a6, a7, a8, rfl⟩

/-- Base-9 little-endian evaluation of a digit list. -/
def digitsVal (ds : List Nat) : Nat := ds.foldr (fun d acc => d + 9 * acc) 0

theorem digitsVal_lt : ∀ ds : List Nat, (∀ d ∈ ds, d < 9) → digitsVal ds < 9 ^ ds.length := by
  intro ds
  induction ds with
  | nil => intro _; simp [digitsVal]
  | cons d ds ih =>
    intro h
    have hd : d < 9 := h d (by simp)
    have hds : digitsVal ds < 9 ^ ds.length := ih fun x hx => h x (by simp [hx])
    simp only [digitsVal, List.foldr_cons, List.length_cons, pow_succ]
    calc d + 9 * (ds.foldr (fun d acc => d + 9 * acc) 0) < 9 * (digitsVal ds + 1) := by
          unfold digitsVal at hds ⊢; omega
      _ ≤ 9 ^ ds.length * 9 := by nlinarith [hds]
      _ = 9 ^ ds.length * 9 := rfl

theorem digitsVal_inj : ∀ ds es : List Nat, ds.length = es.length →
    (∀ d ∈ ds, d < 9) → (∀ e ∈ es, e < 9) → digitsVal ds = digitsVal es → ds = es := by
  intro ds
  induction ds with
  | nil =>
    intro es hlen _ _ _
    cases es with
    | nil => rfl
    | cons e es => simp at hlen
  | cons d ds ih =>
    intro es hlen hd he hv
    cases es with
    | nil => simp at hlen
    | cons e es =>
      have hd9 : d < 9 := hd d (by simp)
      have he9 : e < 9 := he e (by simp)
      have hvds : digitsVal ds < 9 ^ ds.length := digitsVal_lt ds fun x hx => hd x (by simp [hx])
      have hves : digitsVal es < 9 ^ es.length := digitsVal_lt es fun x hx => he x (by simp [hx])
      simp only [digitsVal, List.foldr_cons] at hv
      have hde : d = e ∧ ds.foldr (fun d acc => d + 9 * acc) 0 =
          es.foldr (fun d acc => d + 9 * acc) 0 := by omega
      have := ih es (by simpa using hlen) (fun x hx => hd x (by simp [hx]))
        (fun x hx => he x (by simp [hx])) hde.2
      rw [hde.1, this]

/-- Encode a (3×3, cells-from-`L`) board as a base-9 number below `9 ^ 9`. -/
def encodeBoard (L : List Int) (b : Board) : Nat := digitsVal (b.flatten.map (L.indexOf ·))

theorem boardOK_flatten_mem {B0 b : Board} (hb : BoardOK B0 b) :
    ∀ v ∈ b.flatten, v ∈ B0.flatten := by
  intro v hv
  obtain ⟨r, hr, hvr⟩ := List.mem_flatten.mp hv
  exact hb.2.2 r hr v hvr

theorem encodeBoard_lt {L : List Int} (hL : L.length ≤ 9) {B0 b : Board}
    (hb : BoardOK B0 b) (hBL : ∀ v ∈ B0.flatten, v ∈ L) :
    encodeBoard L b < 9 ^ 9 := by
  have hdig : ∀ d ∈ b.flatten.map (L.indexOf ·), d < 9 := by
    intro d hd
    obtain ⟨v, hv, rfl⟩ := List.mem_map.mp hd
    have : v ∈ L := hBL v (boardOK_flatten_mem hb v hv)
    have := List.indexOf_lt_length.mpr this
    omega
  have hlen : (b.flatten.map (L.indexOf ·)).length = 9 := by
    obtain ⟨a0, a1, a2, a3, a4, a5, a6, a7, a8, rfl⟩ := shape_destruct hb.1 hb.2.1
    rfl
  have := digitsVal_lt _ hdig
  rw [hlen] at this
  exact this

theorem map_indexOf_inj (L : List Int) : ∀ l1 l2 : List Int,
    (∀ v ∈ l1, v ∈ L) → (∀ v ∈ l2, v ∈ L) →
    l1.map (L.indexOf ·) = l2.map (L.indexOf ·) → l1 = l2 := by
  intro l1
  induction l1 with
  | nil =>
    intro l2 _ _ h
    cases l2 with
    | nil => rfl
    | cons b l2 => simp at h
  | cons a l1 ih =>
    intro l2 h1 h2 h
    cases l2 with
    | nil => simp at h
    | cons b l2 =>
      simp only [List.map_cons, List.cons.injEq] at h
      have ha : a ∈ L := h1 a (by simp)
      have hb : b ∈ L := h2 b (by simp)
      have hab : a = b := by
        have h1' := List.getElem_indexOf (List.indexOf_lt_length.mpr ha)
        have h2' := List.getElem_indexOf (List.indexOf_lt_length.mpr hb)
        rw [← h1', ← h2']
        congr 1
        exact h.1
      rw [hab, ih l2 (fun v hv => h1 v (by simp [hv])) (fun v hv => h2 v (by simp [hv])) h.2]

theorem encodeBoard_inj {L : List Int} (hL : L.length ≤ 9) {B0 b1 b2 : Board}
    (hb1 : BoardOK B0 b1) (hb2 : BoardOK B0 b2) (hBL : ∀ v ∈ B0.flatten, v ∈ L)
    (h : encodeBoard L b1 = encodeBoard L b2) : b1 = b2 := by
  have hL1 : ∀ v ∈ b1.flatten, v ∈ L := fun v hv => hBL v (boardOK_flatten_mem hb1 v hv)
  have hL2 : ∀ v ∈ b2.flatten, v ∈ L := fun v hv => hBL v (boardOK_flatten_mem hb2 v hv)
  have hdig1 : ∀ d ∈ b1.flatten.map (L.indexOf ·), d < 9 := by
    intro d hd
    obtain ⟨v, hv, rfl⟩ := List.mem_map.mp hd
    have := List.indexOf_lt_length.mpr (hL1 v hv)
    omega
  have hdig2 : ∀ d ∈ b2.flatten.map (L.indexOf ·), d < 9 := by
    intro d hd
    obtain ⟨v, hv, rfl⟩ := List.mem_map.mp hd
    have := List.indexOf_lt_length.mpr (hL2 v hv)
    omega
  have hlen1 : (b1.flatten.map (L.indexOf ·)).length = 9 := by
    obtain ⟨a0, a1, a2, a3, a4, a5, a6, a7, a8, rfl⟩ := shape_destruct hb1.1 hb1.2.1
    rfl
  have hlen2 : (b2.flatten.map (L.indexOf ·)).length = 9 := by
    obtain ⟨a0, a1, a2, a3, a4, a5, a6, a7, a8, rfl⟩ := shape_destruct hb2.1 hb2.2.1
    rfl
  have hmaps := digitsVal_inj _ _ (by rw [hlen1, hlen2]) hdig1 hdig2 h
  have hflat : b1.flatten = b2.flatten := map_indexOf_inj L _ _ hL1 hL2 hmaps
  obtain ⟨a0, a1, a2, a3, a4, a5, a6, a7, a8, rfl⟩ := shape_destruct hb1.1 hb1.2.1
  obtain ⟨c0, c1, c2, c3, c4, c5, c6, c7, c8, rfl⟩ := shape_destruct hb2.1 hb2.2.1
  simp_all

/-- A duplicate-free list of `BoardOK` boards has at most `9 ^ 9` members. -/
theorem visited_length_bound {L : List Int} (hL : L.length ≤ 9) {B0 : Board}
    (hBL : ∀ v ∈ B0.flatten, v ∈ L)
    {visited : List Board} (hnd : visited.Nodup) (hBO : ∀ b ∈ visited, BoardOK B0 b) :
    visited.length ≤ 9 ^ 9 := by
  classical
  have hmap : (visited.map fun b => (⟨encodeBoard L b % 9 ^ 9, Nat.mod_lt _ (by norm_num)⟩ :
      Fin (9 ^ 9))).Nodup := by
    refine List.Nodup.map_on ?_ hnd
    intro b1 h1 b2 h2 he
    have hlt1 : encodeBoard L b1 < 9 ^ 9 := encodeBoard_lt hL (hBO _ h1) hBL
    have hlt2 : encodeBoard L b2 < 9 ^ 9 := encodeBoard_lt hL (hBO _ h2) hBL
    have hv := congrArg Fin.val he
    simp only at hv
    rw [Nat.mod_eq_of_lt hlt1, Nat.mod_eq_of_lt hlt2] at hv
    exact encodeBoard_inj hL (hBO _ h1) (hBO _ h2) hBL hv
  have hcard := List.Nodup.length_le_card hmap
  rw [Fintype.card_fin, List.length_map] at hcard
  exact hcard

/-! ## The termination measure -/

/-- An upper bound on the number of distinct boards the search can visit. -/
def stateBound : Nat := 9 ^ 9

/-- Weight of one frontier entry: exponentially decreasing in its `moves`. -/
def phiEntry (e : Entry) : Nat := 5 ^ (stateBound + 2 - e.2.moves)

def phiM (M : Multiset Entry) : Nat := (M.map phiEntry).sum

/-- The termination measure of a frontier. -/
def phi (pq : Heap) : Nat := phiM (↑pq)

theorem phiM_add (A B : Multiset Entry) : phiM (A + B) = phiM A + phiM B := by
  simp [phiM]

theorem phiM_singleton (e : Entry) : phiM {e} = phiEntry e := by
  simp [phiM]

theorem phiEntry_pos (e : Entry) : 0 < phiEntry e := by
  unfold phiEntry
  positivity

/-- The cost-entry pushed for a successor. -/
def pushCost (n : PState) : Entry := ((n.moves : Int) + manhattan_distance n, n)

/-- The entries actually pushed while expanding `cur`. -/
def pushedEntries (visited : List Board) (cur : PState) : List Entry :=
  (cur.neighbors.filter fun n => decide (¬ n.board ∈ visited)).map pushCost

theorem pushNeighbors_mset (visited : List Board) (cur : PState) (pq : Heap) :
    (↑(pushNeighbors visited pq cur) : Multiset Entry) =
      ↑pq + ↑(pushedEntries visited cur) := by
  unfold pushNeighbors pushedEntries
  generalize cur.neighbors = l
  induction l generalizing pq with
  | nil => simp
  | cons n l ih =>
    simp only [List.foldl_cons, List.filter_cons]
    by_cases h : n.board ∈ visited
    · rw [if_pos h]
      have : decide (¬ n.board ∈ visited) = false := by simp [h]
      rw [this]
      exact ih pq
    · rw [if_neg h]
      have hdec : decide (¬ n.board ∈ visited) = true := by simp [h]
      rw [hdec, if_pos rfl]
      rw [ih (heappush pq ((n.moves : Int) + manhattan_distance n, n)), heappush_mset]
      simp only [List.map_cons, ← Multiset.cons_coe, ← Multiset.singleton_add, pushCost]
      abel

theorem pushedEntries_length (visited : List Board) (cur : PState) :
    (pushedEntries visited cur).length ≤ 4 := by
  unfold pushedEntries
  rw [List.length_map]
  calc (cur.neighbors.filter fun n => decide (¬ n.board ∈ visited)).length
      ≤ cur.neighbors.length := List.length_filter_le _ _
    _ ≤ 4 := neighbors_length_le cur

theorem pushedEntries_mem {visited : List Board} {cur : PState} {e : Entry}
    (h : e ∈ pushedEntries visited cur) :
    ∃ n, n ∈ cur.neighbors ∧ ¬ n.board ∈ visited ∧ e = pushCost n := by
  unfold pushedEntries at h
  obtain ⟨n, hn, rfl⟩ := List.mem_map.mp h
  obtain ⟨hmem, hdec⟩ := List.mem_filter.mp hn
  exact ⟨n, hmem, by simpa using hdec, rfl⟩

/-! ## Loop invariants for termination -/

/-- Frontier entries carry bounded `moves` fields (strictly bounded once their
board is visited) and well-shaped boards. -/
def EntriesOK (B0 : Board) (visited : List Board) (pq : Heap) : Prop :=
  ∀ e ∈ pq, e.2.moves ≤ visited.length ∧
    (e.2.board ∈ visited → e.2.moves < visited.length) ∧ BoardOK B0 e.2.board

def VisitedOK (B0 : Board) (visited : List Board) : Prop :=
  visited.Nodup ∧ ∀ b ∈ visited, BoardOK B0 b

theorem validBoard_boardOK {B : Board} (hv : validBoard B = true) : BoardOK B B := by
  obtain ⟨h3, hr, -⟩ := validBoard_parts hv
  exact ⟨h3, hr, fun r hrm v hvm => List.mem_flatten.mpr ⟨r, hrm, hvm⟩⟩

theorem validBoard_flatten_length {B : Board} (hv : validBoard B = true) :
    B.flatten.length = 9 := by
  obtain ⟨h3, hr, -⟩ := validBoard_parts hv
  obtain ⟨a0, a1, a2, a3, a4, a5, a6, a7, a8, rfl⟩ := shape_destruct h3 hr
  rfl

theorem visitedOK_bound {B0 : Board} (hv : validBoard B0 = true)
    {visited : List Board} (hV : VisitedOK B0 visited) :
    visited.length ≤ stateBound := by
  have hL : B0.flatten.length ≤ 9 := by rw [validBoard_flatten_length hv]
  exact visited_length_bound hL (fun v hv => hv) hV.1 hV.2

theorem mem_visitAdd {visited : List Board} {c : Board} (b : Board) :
    b ∈ visitAdd visited c ↔ b = c ∨ b ∈ visited := by
  unfold visitAdd
  split
  · rename_i h
    constructor
    · exact Or.inr
    · rintro (rfl | hb)
      · exact h
      · exact hb
  · simp

theorem visitAdd_length {visited : List Board} {c : Board} :
    visited.length ≤ (visitAdd visited c).length ∧
      (visitAdd visited c).length ≤ visited.length + 1 := by
  unfold visitAdd
  split <;> simp

theorem visitAdd_nodup {visited : List Board} {c : Board} (h : visited.Nodup) :
    (visitAdd visited c).Nodup := by
  unfold visitAdd
  split
  · exact h
  · rename_i hc
    exact List.nodup_cons.mpr ⟨hc, h⟩

theorem neighbors_moves {s n : PState} (hn : n ∈ s.neighbors) : n.moves = s.moves + 1 := by
  obtain ⟨x, y, nx, ny, -, -, -, -, -, -, -, -, hm, -⟩ := neighbors_structure hn
  exact hm

theorem neighbors_boardOK {B0 : Board} {s n : PState} (hn : n ∈ s.neighbors)
    (hb : BoardOK B0 s.board) : BoardOK B0 n.board := by
  obtain ⟨x, y, nx, ny, -, hx, hy, hnx, hny, -, -, hbd, -, -⟩ := neighbors_structure hn
  rw [hbd]
  exact boardOK_swap hb hx hy hnx hny

/-- One non-goal iteration: the invariants are preserved and the measure
strictly decreases. -/
theorem step_invariants {B0 : Board} (hB0 : validBoard B0 = true)
    {pq rest : Heap} {c : Int} {cur : PState} {visited : List Board}
    (hpop : heappop pq = some ((c, cur), rest))
    (hE : EntriesOK B0 visited pq) (hV : VisitedOK B0 visited) :
    EntriesOK B0 (visitAdd visited cur.board)
        (pushNeighbors (visitAdd visited cur.board) rest cur) ∧
      VisitedOK B0 (visitAdd visited cur.board) ∧
      phi (pushNeighbors (visitAdd visited cur.board) rest cur) < phi pq := by
  obtain ⟨hms, -⟩ := heappop_mset hpop
  have hcmem : ((c, cur) : Entry) ∈ pq := by
    rw [← Multiset.mem_coe, hms]
    simp
  obtain ⟨hm1, hm2, hcBO⟩ := hE _ hcmem
  have hm1' : cur.moves ≤ visited.length := hm1
  have hm2' : cur.board ∈ visited → cur.moves < visited.length := hm2
  have hrest_sub : ∀ e : Entry, e ∈ rest → e ∈ pq := by
    intro e he
    rw [← Multiset.mem_coe, hms]
    simp [Multiset.mem_coe, he]
  have hVfacts := @visitAdd_length visited cur.board
  have hcurlt : cur.moves < (visitAdd visited cur.board).length := by
    unfold visitAdd
    split
    · rename_i h
      exact hm2' h
    · simp
      omega
  have hV' : VisitedOK B0 (visitAdd visited cur.board) := by
    refine ⟨visitAdd_nodup hV.1, ?_⟩
    intro b hb
    rcases (mem_visitAdd b).mp hb with rfl | hb
    · exact hcBO
    · exact hV.2 _ hb
  have hlen' : (visitAdd visited cur.board).length ≤ stateBound := visitedOK_bound hB0 hV'
  have hE' : EntriesOK B0 (visitAdd visited cur.board)
      (pushNeighbors (visitAdd visited cur.board) rest cur) := by
    intro e he
    rw [← Multiset.mem_coe, pushNeighbors_mset] at he
    rcases Multiset.mem_add.mp he with he | he
    · rw [Multiset.mem_coe] at he
      obtain ⟨h1, h2, h3⟩ := hE _ (hrest_sub _ he)
      refine ⟨by omega, ?_, h3⟩
      intro hb
      rcases (mem_visitAdd _).mp hb with heq | hb
      · unfold visitAdd
        split
        · rename_i hcv
          exact h2 (heq ▸ hcv)
        · simp
          omega
      · have := h2 hb
        omega
    · rw [Multiset.mem_coe] at he
      obtain ⟨n, hn, hnb, rfl⟩ := pushedEntries_mem he
      have hmv : n.moves = cur.moves + 1 := neighbors_moves hn
      refine ⟨?_, fun hb => absurd hb (by simpa [pushCost] using hnb), ?_⟩
      · simp only [pushCost]
        omega
      · simp only [pushCost]
        exact neighbors_boardOK hn hcBO
  refine ⟨hE', hV', ?_⟩
  have hphi_pq : phi pq = phiEntry (c, cur) + phi rest := by
    unfold phi
    rw [hms, phiM_add, phiM_singleton]
  have hphi_new : phi (pushNeighbors (visitAdd visited cur.board) rest cur) =
      phi rest + phiM ↑(pushedEntries (visitAdd visited cur.board) cur) := by
    unfold phi
    rw [pushNeighbors_mset, phiM_add]
  have hmB : cur.moves < stateBound := by omega
  have hK : ∀ x ∈ (pushedEntries (visitAdd visited cur.board) cur).map phiEntry,
      x ≤ 5 ^ (stateBound + 1 - cur.moves) := by
    intro x hx
    obtain ⟨e, he, rfl⟩ := List.mem_map.mp hx
    obtain ⟨n, hn, -, rfl⟩ := pushedEntries_mem he
    have hmv : n.moves = cur.moves + 1 := neighbors_moves hn
    unfold phiEntry
    simp only [pushCost]
    rw [hmv]
    have : stateBound + 2 - (cur.moves + 1) = stateBound + 1 - cur.moves := by omega
    rw [this]
  have hsum : phiM ↑(pushedEntries (visitAdd visited cur.board) cur) ≤
      4 * 5 ^ (stateBound + 1 - cur.moves) := by
    have h1 : phiM ↑(pushedEntries (visitAdd visited cur.board) cur) =
        ((pushedEntries (visitAdd visited cur.board) cur).map phiEntry).sum := by
      simp [phiM]
    rw [h1]
    calc ((pushedEntries (visitAdd visited cur.board) cur).map phiEntry).sum
        ≤ ((pushedEntries (visitAdd visited cur.board) cur).map phiEntry).length •
            5 ^ (stateBound + 1 - cur.moves) := List.sum_le_card_nsmul _ _ hK
      _ = ((pushedEntries (visitAdd visited cur.board) cur).map phiEntry).length *
            5 ^ (stateBound + 1 - cur.moves) := smul_eq_mul ..
      _ ≤ 4 * 5 ^ (stateBound + 1 - cur.moves) := by
          have := pushedEntries_length (visitAdd visited cur.board) cur
          have hlenm : ((pushedEntries (visitAdd visited cur.board) cur).map phiEntry).length ≤ 4 := by
            rw [List.length_map]
            exact this
          exact Nat.mul_le_mul_right _ hlenm
  have hcur_phi : phiEntry ((c, cur) : Entry) = 5 * 5 ^ (stateBound + 1 - cur.moves) := by
    unfold phiEntry
    have : stateBound + 2 - cur.moves = (stateBound + 1 - cur.moves) + 1 := by omega
    rw [this, pow_succ]
    ring
  have hKpos : 0 < 5 ^ (stateBound + 1 - cur.moves) := by positivity
  omega

/-- With fuel exceeding the measure, the loop always reaches one of its two
`return` statements. -/
theorem solveLoop_terminates {B0 : Board} (hB0 : validBoard B0 = true) :
    ∀ (n : Nat) (pq : Heap) (visited : List Board),
      EntriesOK B0 visited pq → VisitedOK B0 visited → phi pq < n →
      ∃ r, solveLoop n pq visited = some r := by
  intro n
  induction n with
  | zero => intro pq visited _ _ h; omega
  | succ n ih =>
    intro pq visited hE hV hphi
    unfold solveLoop
    cases hpop : heappop pq with
    | none => exact ⟨none, rfl⟩
    | some er =>
      obtain ⟨⟨c, cur⟩, rest⟩ := er
      dsimp only
      by_cases hg : cur.is_goal = true
      · rw [if_pos hg]
        exact ⟨some (reconstruct_path cur), rfl⟩
      · rw [if_neg hg]
        obtain ⟨hE', hV', hdec⟩ := step_invariants hB0 hpop hE hV
        have hphi_pq : phi (pushNeighbors (visitAdd visited cur.board) rest cur) < n := by
          omega
        obtain ⟨r, hr⟩ := ih _ _ hE' hV' hphi_pq
        exact ⟨r, hr⟩

/-- Once the loop returns a result, more fuel returns the same result. -/
theorem solveLoop_mono :
    ∀ (n m : Nat) (pq : Heap) (visited : List Board) (r : Option (List Board)),
      solveLoop n pq visited = some r → n ≤ m → solveLoop m pq visited = some r := by
  intro n
  induction n with
  | zero =>
    intro m pq visited r h
    exact absurd h (by simp [solveLoop])
  | succ n ih =>
    intro m pq visited r h hnm
    cases m with
    | zero => omega
    | succ m =>
      unfold solveLoop at h ⊢
      cases hpop : heappop pq with
      | none => rw [hpop] at h; exact h
      | some er =>
        obtain ⟨⟨c, cur⟩, rest⟩ := er
        rw [hpop] at h
        dsimp only at h ⊢
        by_cases hg : cur.is_goal = true
        · rw [if_pos hg] at h ⊢
          exact h
        · rw [if_neg hg] at h ⊢
          exact ih m _ _ r h (by omega)

/-- C4: on every valid initial board — solvable or not — `as_algo_solve`
terminates with a definite outcome: with enough fuel the embedded `while`
loop returns `some r`, where `r` is either a path or Python's `None`
("no solution"); it neither loops forever nor crashes. -/
theorem c4_solve_terminates (B : Board) (hv : validBoard B = true) :
    ∃ (n : Nat) (r : Option (List Board)), ∀ m : Nat, n ≤ m →
      as_algo_solve m (PState.mk' B 0 none) = some r := by
  have hfr : initialFrontier (PState.mk' B 0 none) = [((0 : Int), PState.mk' B 0 none)] := rfl
  have hE0 : EntriesOK B [] (initialFrontier (PState.mk' B 0 none)) := by
    rw [hfr]
    intro e he
    simp only [List.mem_singleton] at he
    subst he
    refine ⟨by simp, by simp, ?_⟩
    simp only [PState.board_mk']
    exact validBoard_boardOK hv
  have hV0 : VisitedOK B [] := ⟨List.nodup_nil, by simp⟩
  obtain ⟨r, hr⟩ := solveLoop_terminates hv (phi (initialFrontier (PState.mk' B 0 none)) + 1)
    _ [] hE0 hV0 (by omega)
  exact ⟨phi (initialFrontier (PState.mk' B 0 none)) + 1, r,
    fun m hm => solveLoop_mono _ m _ _ r hr hm⟩

/-- C4 witness: an unsolvable (odd-parity) scramble is a valid board, and the
theorem applies to it. -/
theorem c4_solve_terminates_witness :
    validBoard [[0, 2, 1], [3, 4, 5], [6, 7, 8]] = true ∧
      ∃ (n : Nat) (r : Option (List Board)), ∀ m : Nat, n ≤ m →
        as_algo_solve m (PState.mk' [[0, 2, 1], [3, 4, 5], [6, 7, 8]] 0 none) = some r :=
  ⟨by decide, c4_solve_terminates [[0, 2, 1], [3, 4, 5], [6, 7, 8]] (by decide)⟩

/-! ## Heap-order invariant

`entryLt` is not a strict weak order on arbitrary entries, but every entry
the search compares satisfies `cost = moves + manhattan_distance` (`CostOK`),
and on that domain `entryLt` is exactly the lexicographic `(cost, moves)`
order: two `CostOK` entries with equal boards and equal costs have equal
`moves`, so the board-equality test inside the tuple comparison never hides
an actual difference. -/

/-- The invariant every pushed cost entry satisfies. -/
def CostOK (e : Entry) : Prop := e.1 = (e.2.moves : Int) + manhattan_distance e.2

def CostOKH (pq : Heap) : Prop := ∀ e ∈ pq, CostOK e

/-- Total preorder on entries: lexicographic on `(cost, moves)`. -/
def keyLe (a b : Entry) : Prop := a.1 < b.1 ∨ (a.1 = b.1 ∧ a.2.moves ≤ b.2.moves)

theorem keyLe_refl (a : Entry) : keyLe a a := Or.inr ⟨rfl, le_refl _⟩

theorem keyLe_trans {a b c : Entry} (h1 : keyLe a b) (h2 : keyLe b c) : keyLe a c := by
  unfold keyLe at *
  rcases h1 with h1 | ⟨h1, h1'⟩ <;> rcases h2 with h2 | ⟨h2, h2'⟩ <;>
    first
      | exact Or.inl (by omega)
      | exact Or.inr ⟨by omega, by omega⟩

/-- On `CostOK` entries, `__lt__`-based tuple comparison is the strict
lexicographic order on `(cost, moves)`. -/
theorem entryLt_iff {a b : Entry} (ha : CostOK a) (hb : CostOK b) :
    entryLt a b = true ↔ (a.1 < b.1 ∨ (a.1 = b.1 ∧ a.2.moves < b.2.moves)) := by
  unfold entryLt pyLt
  constructor
  · intro h
    split at h
    · rename_i hc
      split at h
      · exact absurd h (by simp)
      · right
        exact ⟨hc, by simpa using h⟩
    · rename_i hc
      left
      have := of_decide_eq_true h
      exact this
  · intro h
    rcases h with h | ⟨h1, h2⟩
    · rw [if_neg (by omega)]
      simpa using h
    · rw [if_pos h1]
      have hbne : ¬ a.2.board = b.2.board := by
        intro hbd
        have hman : manhattan_distance a.2 = manhattan_distance b.2 := manhattan_congr hbd
        unfold CostOK at ha hb
        omega
      rw [if_neg hbne]
      simpa using h2

/-- The tuple comparison is total on `CostOK` entries. -/
theorem keyLe_of_not_entryLt {a b : Entry} (ha : CostOK a) (hb : CostOK b)
    (h : ¬ entryLt a b = true) : keyLe b a := by
  rw [entryLt_iff ha hb] at h
  unfold keyLe
  omega

theorem keyLe_of_entryLt {a b : Entry} (ha : CostOK a) (hb : CostOK b)
    (h : entryLt a b = true) : keyLe a b := by
  rw [entryLt_iff ha hb] at h
  unfold keyLe
  omega

theorem hget_mem {pq : Heap} {i : Nat} (h : i < pq.length) : hget pq i ∈ pq := by
  unfold hget
  rw [List.getD_eq_getElem?_getD, List.getElem?_eq_getElem h]
  exact List.getElem_mem h

/-- The binary-heap shape invariant: every non-root slot is `keyLe`-above its
parent slot. -/
def IsHeap (pq : Heap) : Prop :=
  ∀ i : Nat, 0 < i → i < pq.length → keyLe (hget pq ((i - 1) / 2)) (hget pq i)

/-- In a heap, the root is a minimum. -/
theorem isHeap_root_min {pq : Heap} (hh : IsHeap pq) :
    ∀ e ∈ pq, keyLe (hget pq 0) e := by
  have key : ∀ i, i < pq.length → keyLe (hget pq 0) (hget pq i) := by
    intro i
    induction i using Nat.strong_induction_on with
    | _ i ih =>
      intro hi
      rcases Nat.eq_zero_or_pos i with rfl | hpos
      · exact keyLe_refl _
      · have hpar : (i - 1) / 2 < i := by omega
        exact keyLe_trans (ih _ hpar (by omega)) (hh i hpos hi)
  intro e he
  obtain ⟨i, hi, rfl⟩ := List.mem_iff_getElem.mp he
  have : hget pq i = getElem pq i hi := by
    unfold hget
    rw [List.getD_eq_getElem?_getD, List.getElem?_eq_getElem hi]
    rfl
  rw [← this]
  exact key i hi

theorem costOKH_of_mset {pq1 pq2 : Heap} {e : Entry}
    (h : (↑pq1 : Multiset Entry) = ↑pq2 + {e}) (hc : CostOKH pq2) (he : CostOK e) :
    CostOKH pq1 := by
  intro x hx
  rw [← Multiset.mem_coe, h] at hx
  rcases Multiset.mem_add.mp hx with hx | hx
  · exact hc _ (Multiset.mem_coe.mp hx)
  · rw [Multiset.mem_singleton.mp hx]
    exact he

theorem costOKH_set {pq : Heap} (hc : CostOKH pq) {i : Nat} {v : Entry} (hv : CostOK v) :
    CostOKH (pq.set i v) := by
  intro x hx
  rcases List.mem_or_eq_of_mem_set hx with hx | rfl
  · exact hc _ hx
  · exact hv

/-- Sifting an item towards the root restores the heap shape, provided the
array is heap-shaped except around the hole at `pos`:
edges not touching `pos` hold, and every child of the hole is `keyLe`-above
both the hole's parent slot and the item itself. -/
theorem isHeap_siftdown :
    ∀ (fuel : Nat) (pq : Heap) (pos : Nat) (item : Entry),
      pos ≤ fuel → pos < pq.length → CostOKH pq → CostOK item →
      (∀ i, 0 < i → i < pq.length → i ≠ pos → (i - 1) / 2 ≠ pos →
        keyLe (hget pq ((i - 1) / 2)) (hget pq i)) →
      (∀ ic, 0 < ic → ic < pq.length → (ic - 1) / 2 = pos →
        (0 < pos → keyLe (hget pq ((pos - 1) / 2)) (hget pq ic)) ∧
          keyLe item (hget pq ic)) →
      IsHeap (siftdown fuel pq 0 pos item) := by
  have exitCase : ∀ (pq : Heap) (pos : Nat) (item : Entry),
      pos < pq.length → CostOKH pq → CostOK item →
      (∀ i, 0 < i → i < pq.length → i ≠ pos → (i - 1) / 2 ≠ pos →
        keyLe (hget pq ((i - 1) / 2)) (hget pq i)) →
      (∀ ic, 0 < ic → ic < pq.length → (ic - 1) / 2 = pos →
        (0 < pos → keyLe (hget pq ((pos - 1) / 2)) (hget pq ic)) ∧
          keyLe item (hget pq ic)) →
      (0 < pos → keyLe (hget pq ((pos - 1) / 2)) item) →
      IsHeap (pq.set pos item) := by
    intro pq pos item hlen hcok hitem hP1 hP2 hedge
    intro i hi0 hilen
    rw [List.length_set] at hilen
    by_cases hipos : i = pos
    · subst hipos
      rw [hget_set_ne pq i ((i - 1) / 2) item (by omega), hget_set_self _ _ _ hlen]
      exact hedge hi0
    · by_cases hpar : (i - 1) / 2 = pos
      · rw [hpar, hget_set_self _ _ _ hlen, hget_set_ne pq pos i item (by omega)]
        exact (hP2 i hi0 hilen hpar).2
      · rw [hget_set_ne pq pos ((i - 1) / 2) item (by omega),
          hget_set_ne pq pos i item (by omega)]
        exact hP1 i hi0 hilen hipos hpar
  intro fuel
  induction fuel with
  | zero =>
    intro pq pos item hf hlen hcok hitem hP1 hP2
    have hpos0 : pos = 0 := by omega
    subst hpos0
    unfold siftdown
    exact exitCase pq 0 item hlen hcok hitem hP1 hP2 (fun h => absurd h (by omega))
  | succ fuel ih =>
    intro pq pos item hf hlen hcok hitem hP1 hP2
    unfold siftdown
    dsimp only
    by_cases h0 : 0 < pos
    case neg =>
      rw [if_neg h0]
      have hpos0 : pos = 0 := by omega
      subst hpos0
      exact exitCase pq 0 item hlen hcok hitem hP1 hP2 (fun h => absurd h (by omega))
    rw [if_pos h0]
    have hpplen : (pos - 1) / 2 < pq.length := by omega
    have hppok : CostOK (hget pq ((pos - 1) / 2)) := hcok _ (hget_mem hpplen)
    by_cases hlt : entryLt item (hget pq ((pos - 1) / 2)) = true
    · rw [if_pos hlt]
      have hple : keyLe item (hget pq ((pos - 1) / 2)) := keyLe_of_entryLt hitem hppok hlt
      apply ih (pq.set pos (hget pq ((pos - 1) / 2))) ((pos - 1) / 2) item (by omega)
        (by rw [List.length_set]; omega) (costOKH_set hcok hppok) hitem
      · -- edges away from the new hole
        intro i hi0 hilen hip hipar
        rw [List.length_set] at hilen
        by_cases hipos : i = pos
        · exfalso
          apply hipar
          omega
        · by_cases hiparpos : (i - 1) / 2 = pos
          · rw [hiparpos, hget_set_self _ _ _ hlen, hget_set_ne _ _ _ _ (by omega)]
            exact (hP2 i hi0 hilen hiparpos).1 h0
          · rw [hget_set_ne _ _ _ _ (by omega), hget_set_ne _ _ _ _ (by omega)]
            exact hP1 i hi0 hilen hipos hiparpos
      · -- children of the new hole
        intro ic hic0 hiclen hicpar
        rw [List.length_set] at hiclen
        have hppltpos : (pos - 1) / 2 < pos := by omega
        have hgpne : ((pos - 1) / 2 - 1) / 2 ≠ pos := by omega
        by_cases hicpos : ic = pos
        · subst hicpos
          rw [hget_set_self _ _ _ hlen]
          constructor
          · intro hpp0
            rw [hget_set_ne pq ic (((ic - 1) / 2 - 1) / 2) _ (by omega)]
            exact hP1 _ hpp0 (by omega) (by omega) hgpne
          · exact hple
        · rw [hget_set_ne pq pos ic _ (by omega)]
          have hedge_ic : keyLe (hget pq ((pos - 1) / 2)) (hget pq ic) := by
            have := hP1 ic hic0 hiclen hicpos (by omega)
            rw [hicpar] at this
            exact this
          constructor
          · intro hpp0
            rw [hget_set_ne pq pos (((pos - 1) / 2 - 1) / 2) _ (by omega)]
            exact keyLe_trans (hP1 _ hpp0 (by omega) (by omega) hgpne) hedge_ic
          · exact keyLe_trans hple hedge_ic
    · rw [if_neg hlt]
      exact exitCase pq pos item hlen hcok hitem hP1 hP2
        (fun _ => keyLe_of_not_entryLt hitem hppok hlt)

/-- CPython's bottom-up `_siftup` restores the heap shape: the hole walks
down along minimal children and the moved last element is finally sifted
towards the root. -/
theorem isHeap_siftup :
    ∀ (fuel : Nat) (pq : Heap) (endpos pos : Nat) (item : Entry),
      endpos = pq.length → endpos ≤ fuel + pos + 1 → pos < endpos →
      CostOKH pq → CostOK item →
      (∀ i, 0 < i → i < pq.length → i ≠ pos → (i - 1) / 2 ≠ pos →
        keyLe (hget pq ((i - 1) / 2)) (hget pq i)) →
      (∀ ic, 0 < ic → ic < pq.length → (ic - 1) / 2 = pos →
        0 < pos → keyLe (hget pq ((pos - 1) / 2)) (hget pq ic)) →
      IsHeap (siftup fuel pq endpos 0 pos item) := by
  intro fuel
  induction fuel with
  | zero =>
    intro pq endpos pos item hep hfuel hpos hcok hitem hQ1 hQ2
    unfold siftup
    apply isHeap_siftdown pos pq pos item (le_refl _) (by omega) hcok hitem hQ1
    intro ic hic0 hiclen hicpar
    exfalso
    omega
  | succ fuel ih =>
    intro pq endpos pos item hep hfuel hpos hcok hitem hQ1 hQ2
    unfold siftup
    dsimp only
    by_cases hchild : 2 * pos + 1 < endpos
    case neg =>
      rw [if_neg hchild]
      apply isHeap_siftdown pos pq pos item (le_refl _) (by omega) hcok hitem hQ1
      intro ic hic0 hiclen hicpar
      exfalso
      omega
    rw [if_pos hchild]
    set c : Nat := if 2 * pos + 1 + 1 < endpos ∧
        ¬ entryLt (hget pq (2 * pos + 1)) (hget pq (2 * pos + 1 + 1)) = true then 2 * pos + 1 + 1
      else 2 * pos + 1 with hc
    have hcrange : c = 2 * pos + 1 ∨ c = 2 * pos + 2 := by
      rw [hc]; split
      · right; rfl
      · left; rfl
    have hcpar : (c - 1) / 2 = pos := by
      rcases hcrange with h | h <;> omega
    have hclen : c < endpos := by
      rw [hc]; split
      · omega
      · omega
    have hclen' : c < pq.length := by omega
    -- the chosen child is keyLe-below its (in-range) sibling
    have hsib : ∀ i, 0 < i → i < endpos → (i - 1) / 2 = pos → i ≠ c →
        keyLe (hget pq c) (hget pq i) := by
      intro i hi0 hilen hipar hic
      have hir : i = 2 * pos + 1 ∨ i = 2 * pos + 2 := by omega
      have hlok : CostOK (hget pq (2 * pos + 1)) := hcok _ (hget_mem (by omega))
      rcases hir with rfl | rfl
      · -- sibling is the left child, so c is the right child
        have hcr : c = 2 * pos + 2 := by
          rcases hcrange with hcl | hcr
        -- c = left contradicts i ≠ c
          · exact absurd hcl.symm (by omega)
          · exact hcr
        have : 2 * pos + 1 + 1 < endpos ∧
            ¬ entryLt (hget pq (2 * pos + 1)) (hget pq (2 * pos + 1 + 1)) = true := by
          by_contra hcon
          rw [hc] at hcr
          rw [if_neg hcon] at hcr
          omega
        have hrok : CostOK (hget pq (2 * pos + 2)) := hcok _ (hget_mem (by omega))
        have := keyLe_of_not_entryLt hlok hrok this.2
        rw [hcr]
        exact this
      · -- sibling is the right child, so c is the left child and the test chose it
        have hcl : c = 2 * pos + 1 := by
          rcases hcrange with hcl | hcr
          · exact hcl
          · exact absurd hcr.symm (by omega)
        have hcond : ¬ (2 * pos + 1 + 1 < endpos ∧
            ¬ entryLt (hget pq (2 * pos + 1)) (hget pq (2 * pos + 1 + 1)) = true) := by
          intro hcon
          rw [hc, if_pos hcon] at hcl
          omega
        have hrin : 2 * pos + 1 + 1 < endpos := by omega
        have hlt : entryLt (hget pq (2 * pos + 1)) (hget pq (2 * pos + 1 + 1)) = true := by
          by_contra hcon
          exact hcond ⟨hrin, hcon⟩
        have hrok : CostOK (hget pq (2 * pos + 1 + 1)) := hcok _ (hget_mem (by omega))
        have := keyLe_of_entryLt hlok hrok hlt
        rw [hcl]
        exact this
    apply ih (pq.set pos (hget pq c)) endpos c item (by rw [List.length_set]; exact hep)
      (by omega) hclen (costOKH_set hcok (hcok _ (hget_mem hclen'))) hitem
    · -- edges away from the new hole at c
      intro i hi0 hilen hic hicpar2
      rw [List.length_set] at hilen
      by_cases hipos : i = pos
      · subst hipos
        rw [hget_set_self _ _ _ (by omega), hget_set_ne pq i ((i - 1) / 2) _ (by omega)]
        exact hQ2 c (by omega) hclen' hcpar hi0
      · by_cases hiparpos : (i - 1) / 2 = pos
        · rw [hiparpos, hget_set_self _ _ _ (by omega), hget_set_ne pq pos i _ (by omega)]
          exact hsib i hi0 (by omega) hiparpos hic
        · rw [hget_set_ne pq pos ((i - 1) / 2) _ (by omega), hget_set_ne pq pos i _ (by omega)]
          exact hQ1 i hi0 hilen hipos hiparpos
    · -- children of the new hole at c
      intro ic hic0 hiclen hicpar2 hc0
      rw [List.length_set] at hiclen
      rw [hcpar, hget_set_self _ _ _ (by omega), hget_set_ne pq pos ic _ (by omega)]
      have := hQ1 ic hic0 hiclen (by omega) (by omega)
      rw [hicpar2] at this
      exact this

theorem hget_append {pq : Heap} {item : Entry} {j : Nat} (h : j < pq.length) :
    hget (pq ++ [item]) j = hget pq j := by
  unfold hget
  rw [List.getD_eq_getElem?_getD, List.getD_eq_getElem?_getD, List.getElem?_append_left h]

theorem isHeap_heappush {pq : Heap} {item : Entry} (hh : IsHeap pq)
    (hc : CostOKH pq) (hi : CostOK item) : IsHeap (heappush pq item) := by
  unfold heappush
  apply isHeap_siftdown pq.length (pq ++ [item]) pq.length item (le_refl _) (by simp)
  · intro e he
    rcases List.mem_append.mp he with he | he
    · exact hc _ he
    · rw [List.mem_singleton.mp he]
      exact hi
  · exact hi
  · intro i hi0 hilen hip hipar
    rw [List.length_append, List.length_singleton] at hilen
    have hi' : i < pq.length := by omega
    rw [hget_append hi', hget_append (by omega)]
    exact hh i hi0 hi'
  · intro ic hic0 hiclen hicpar
    exfalso
    rw [List.length_append, List.length_singleton] at hiclen
    omega

theorem heappop_root {pq : Heap} {e : Entry} {rest : Heap}
    (h : heappop pq = some (e, rest)) : e = hget pq 0 := by
  unfold heappop at h
  cases hl : pq.getLast? with
  | none => rw [hl] at h; exact absurd h (by simp)
  | some last =>
    rw [hl] at h
    have hne : pq ≠ [] := by
      intro hcon
      rw [hcon] at hl
      exact absurd hl (by simp)
    have hsplit : pq.dropLast ++ [pq.getLast hne] = pq := List.dropLast_concat_getLast hne
    have hlast : pq.getLast hne = last := by
      have := List.getLast?_eq_getLast pq hne
      rw [hl] at this
      exact (Option.some.inj this).symm
    rw [hlast] at hsplit
    dsimp only at h
    by_cases hz : pq.dropLast.length ≠ 0
    · rw [if_pos hz] at h
      have he : e = hget pq.dropLast 0 := (congrArg Prod.fst (Option.some.inj h)).symm
      rw [he]
      conv_rhs => rw [← hsplit]
      rw [hget_append (by omega)]
    · rw [if_neg hz] at h
      have he : e = last := (congrArg Prod.fst (Option.some.inj h)).symm
      have hdl : pq.dropLast = [] := List.eq_nil_of_length_eq_zero (by omega)
      rw [he]
      conv_rhs => rw [← hsplit, hdl]
      rfl

theorem isHeap_heappop {pq : Heap} {e : Entry} {rest : Heap}
    (h : heappop pq = some (e, rest)) (hh : IsHeap pq) (hc : CostOKH pq) : IsHeap rest := by
  unfold heappop at h
  cases hl : pq.getLast? with
  | none => rw [hl] at h; exact absurd h (by simp)
  | some last =>
    rw [hl] at h
    have hne : pq ≠ [] := by
      intro hcon
      rw [hcon] at hl
      exact absurd hl (by simp)
    have hsplit : pq.dropLast ++ [pq.getLast hne] = pq := List.dropLast_concat_getLast hne
    have hlast : pq.getLast hne = last := by
      have := List.getLast?_eq_getLast pq hne
      rw [hl] at this
      exact (Option.some.inj this).symm
    rw [hlast] at hsplit
    have hlastmem : last ∈ pq := by
      rw [← hsplit]
      simp
    have hdlen : pq.dropLast.length + 1 = pq.length := by
      conv_rhs => rw [← hsplit]
      simp
    have hdmem : ∀ x : Entry, x ∈ pq.dropLast → x ∈ pq := by
      intro x hx
      rw [← hsplit]
      exact List.mem_append_left _ hx
    have hdget : ∀ j : Nat, j < pq.dropLast.length → hget pq.dropLast j = hget pq j := by
      intro j hj
      conv_rhs => rw [← hsplit]
      rw [hget_append hj]
    dsimp only at h
    by_cases hz : pq.dropLast.length ≠ 0
    · rw [if_pos hz] at h
      have hr : rest = siftup pq.dropLast.length (pq.dropLast.set 0 last)
          pq.dropLast.length 0 0 last := (congrArg Prod.snd (Option.some.inj h)).symm
      rw [hr]
      apply isHeap_siftup pq.dropLast.length (pq.dropLast.set 0 last)
        pq.dropLast.length 0 last (by simp) (by omega) (by omega)
      · intro x hx
        rcases List.mem_or_eq_of_mem_set hx with hx | rfl
        · exact hc _ (hdmem _ hx)
        · exact hc _ hlastmem
      · exact hc _ hlastmem
      · intro i hi0 hilen hip hipar
        rw [List.length_set] at hilen
        rw [hget_set_ne _ _ _ _ (by omega), hget_set_ne _ _ _ _ (by omega),
          hdget _ (by omega), hdget _ hilen]
        exact hh i hi0 (by omega)
      · intro ic hic0 hiclen hicpar h0
        exact absurd h0 (by omega)
    · rw [if_neg hz] at h
      have hr : rest = pq.dropLast := (congrArg Prod.snd (Option.some.inj h)).symm
      rw [hr]
      intro i hi0 hilen
      omega

theorem costOK_pushCost (n : PState) : CostOK (pushCost n) := rfl

theorem isHeap_pushNeighbors (visited : List Board) (cur : PState) :
    ∀ pq : Heap, IsHeap pq → CostOKH pq →
      IsHeap (pushNeighbors visited pq cur) ∧ CostOKH (pushNeighbors visited pq cur) := by
  unfold pushNeighbors
  generalize cur.neighbors = l
  induction l with
  | nil => intro pq hh hc; exact ⟨hh, hc⟩
  | cons n l ih =>
    intro pq hh hc
    simp only [List.foldl_cons]
    by_cases hmem : n.board ∈ visited
    · rw [if_pos hmem]
      exact ih pq hh hc
    · rw [if_neg hmem]
      refine ih _ (isHeap_heappush hh hc (costOK_pushCost n)) ?_
      exact costOKH_of_mset (heappush_mset pq _) hc (costOK_pushCost n)

theorem costOKH_heappop {pq : Heap} {e : Entry} {rest : Heap}
    (h : heappop pq = some (e, rest)) (hc : CostOKH pq) : CostOKH rest := by
  obtain ⟨hms, -⟩ := heappop_mset h
  intro x hx
  apply hc
  rw [← Multiset.mem_coe, hms]
  simp [Multiset.mem_coe, hx]

/-! ## The heuristic as a function of the board, and states that realize
actual move paths (towards the optimality claim C1) -/

/-- `manhattan_distance` depends only on the board. -/
def hB (b : Board) : Int := manhattan_distance (PState.root b 0)

theorem hB_goalBoard : hB goalBoard = 0 := by decide

theorem manhattan_eq_hB (s : PState) : manhattan_distance s = hB s.board :=
  manhattan_congr rfl

/-- The boards of `neighbors` depend only on the current board. -/
theorem neighbors_map_board (s : PState) :
    s.neighbors.map PState.board = moveBoards s.board := by
  unfold moveBoards PState.neighbors
  have hb : (PState.root s.board 0).board = s.board := rfl
  rw [hb]
  cases hfe : findEmpty s.board with
  | none => rfl
  | some xy =>
    obtain ⟨x, y⟩ := xy
    rw [List.map_filterMap, List.map_filterMap]
    congr 1
    funext d
    dsimp only
    split
    · rfl
    · rfl

theorem moveStep_of_neighbor {s t : PState} (ht : t ∈ s.neighbors) :
    MoveStep s.board t.board := by
  unfold MoveStep
  rw [← neighbors_map_board s]
  exact List.mem_map_of_mem _ ht

theorem neighbor_of_moveStep {b b' : Board} (h : MoveStep b b') :
    ∃ t ∈ (PState.root b 0).neighbors, t.board = b' := by
  unfold MoveStep moveBoards at h
  obtain ⟨t, ht, rfl⟩ := List.mem_map.mp h
  exact ⟨t, ht, rfl⟩

theorem moveStep_boardOK {B0 b b' : Board} (hb : BoardOK B0 b) (h : MoveStep b b') :
    BoardOK B0 b' := by
  obtain ⟨t, ht, rfl⟩ := neighbor_of_moveStep h
  have hbt : (PState.root b 0).board = b := rfl
  exact neighbors_boardOK ht (by rw [hbt]; exact hb)

/-- One legal move changes the heuristic by at most 1 (only the 3×3 shape of
the board is needed). -/
theorem hB_step {B0 b b' : Board} (hb : BoardOK B0 b) (h : MoveStep b b') :
    |hB b - hB b'| ≤ 1 := by
  obtain ⟨t, ht, rfl⟩ := neighbor_of_moveStep h
  have h2 : hB t.board = manhattan_distance t := (manhattan_eq_hB t).symm
  rw [h2]
  exact manhattan_consistent_shape _ t hb.1 hb.2.1 ht

/-- A state whose predecessor chain realizes an actual move path starting at
`B`: the chain is well-formed, its reconstructed path starts at `B`, and every
consecutive pair of boards differs by one legal move.  These are exactly the
states the search builds from `PuzzleState(B)` via `neighbors`. -/
def GoodState (B : Board) (s : PState) : Prop :=
  WfChain s ∧ (reconstruct_path s).head? = some B ∧
    (reconstruct_path s).Chain' MoveStep

theorem goodState_root (B : Board) : GoodState B (PState.root B 0) :=
  ⟨rfl, rfl, List.chain'_singleton B⟩

/-- Successors of a good state are good. -/
theorem goodState_neighbor {B : Board} {s n : PState} (hg : GoodState B s)
    (hn : n ∈ s.neighbors) : GoodState B n := by
  obtain ⟨hw, hh, hc⟩ := hg
  have hms : MoveStep s.board n.board := moveStep_of_neighbor hn
  have hmv : n.moves = s.moves + 1 := neighbors_moves hn
  obtain ⟨x, y, nx, ny, -, -, -, -, -, -, -, -, -, hp⟩ := neighbors_structure hn
  cases n with
  | root b m => simp [PState.prev] at hp
  | step b m p =>
    simp only [PState.prev, Option.some.injEq] at hp
    subst hp
    refine ⟨⟨hmv, hw⟩, ?_, ?_⟩
    · simp only [reconstruct_path]
      rw [List.head?_append, hh]
      rfl
    · simp only [reconstruct_path]
      rw [List.chain'_append]
      refine ⟨hc, List.chain'_singleton b, ?_⟩
      intro u hu v hv
      have hlast : (reconstruct_path p).getLast? = some p.board :=
        (reconstruct_path_wf p hw).2.2.2.2
      rw [hlast] at hu
      simp only [Option.mem_def, Option.some.injEq, List.head?_cons] at hu hv
      subst hu
      subst hv
      exact hms

/-- Access a `Chain'` relation at consecutive positions. -/
theorem chain'_getD {α : Type} {R : α → α → Prop} {l : List α} (d : α)
    (hc : l.Chain' R) {j : Nat} (hj : j + 1 < l.length) :
    R (l.getD j d) (l.getD (j + 1) d) := by
  rw [List.getD_eq_getElem l d (by omega), List.getD_eq_getElem l d hj]
  have h := List.chain'_iff_get.mp hc j (by omega)
  simpa [List.get_eq_getElem] using h

theorem head?_getD {α : Type} {l : List α} {a : α} (d : α) (h : l.head? = some a) :
    l.getD 0 d = a := by
  cases l with
  | nil => simp at h
  | cons x t =>
    simp only [List.head?_cons, Option.some.injEq] at h
    simpa using h

theorem getLast?_getD {α : Type} {l : List α} {a : α} (d : α) (h : l.getLast? = some a) :
    l.getD (l.length - 1) d = a := by
  rw [List.getLast?_eq_getElem?] at h
  rw [List.getD_eq_getElem?_getD, h]
  rfl

/-- Every board along a solution path from a valid board is well-shaped with
cells drawn from the initial board. -/
theorem solution_boardOK {B : Board} {bs : List Board} (hv : validBoard B = true)
    (hsol : IsSolution B bs) : ∀ j, j < bs.length → BoardOK B (bs.getD j []) := by
  intro j
  induction j with
  | zero =>
    intro h0
    rw [head?_getD ([] : Board) hsol.1]
    exact validBoard_boardOK hv
  | succ j ih =>
    intro hj
    exact moveStep_boardOK (ih (by omega)) (chain'_getD ([] : Board) hsol.2.2 hj)

/-- The heuristic is Lipschitz along a move path: going `d` steps forward
lowers it by at most `d`. -/
theorem hB_path_le {B : Board} {bs : List Board}
    (hOK : ∀ j, j < bs.length → BoardOK B (bs.getD j []))
    (hc : bs.Chain' MoveStep) :
    ∀ (d i : Nat), i + d < bs.length →
      hB (bs.getD i []) ≤ hB (bs.getD (i + d) []) + d := by
  intro d
  induction d with
  | zero =>
    intro i h
    simp
  | succ d ih =>
    intro i h
    have h1 := ih (i + 1) (by omega)
    have hstep : MoveStep (bs.getD i []) (bs.getD (i + 1) []) :=
      chain'_getD ([] : Board) hc (by omega)
    have habs := hB_step (hOK i (by omega)) hstep
    have hre : i + 1 + d = i + (d + 1) := by omega
    rw [hre] at h1
    rw [abs_le] at habs
    push_cast
    omega

/-- `bs` is an optimal (minimum-length) solution path from `B` with `k` moves. -/
def OptPath (B : Board) (bs : List Board) (k : Nat) : Prop :=
  IsSolution B bs ∧ bs.length = k + 1 ∧ ∀ cs, IsSolution B cs → k + 1 ≤ cs.length

/-- Every suffix of a solution path is a solution path from its first board. -/
theorem suffix_facts {B : Board} {bs : List Board} (hsol : IsSolution B bs)
    {j : Nat} (hj : j < bs.length) :
    (bs.drop j).head? = some (bs.getD j []) ∧
      (bs.drop j).getLast? = some goalBoard ∧ (bs.drop j).Chain' MoveStep := by
  refine ⟨?_, ?_, hsol.2.2.drop j⟩
  · rw [List.head?_drop, List.getD_eq_getElem bs [] hj, List.getElem?_eq_getElem hj]
  · have h2 := hsol.2.1
    rw [List.getLast?_eq_getElem?] at h2 ⊢
    rw [List.length_drop, List.getElem?_drop]
    have hre : j + (bs.length - j - 1) = bs.length - 1 := by omega
    rw [hre]
    exact h2

/-- On an optimal path, the start board appears only at position 0. -/
theorem optPath_getD_eq_start {B : Board} {bs : List Board} {k : Nat}
    (hopt : OptPath B bs k) {j : Nat} (hj : j ≤ k) (he : bs.getD j [] = B) :
    j = 0 := by
  obtain ⟨hsol, hlen, hmin⟩ := hopt
  obtain ⟨hh, hlast, hchain⟩ := suffix_facts hsol (by omega : j < bs.length)
  have hds : IsSolution B (bs.drop j) := ⟨by rw [hh, he], hlast, hchain⟩
  have hlb := hmin _ hds
  rw [List.length_drop, hlen] at hlb
  omega

/-- Prefix optimality: any realized path to the board at position `j` of an
optimal path uses at least `j` moves (otherwise splicing it with the optimal
suffix would beat the optimum). -/
theorem subpath_le {B : Board} {bs : List Board} {k : Nat} (hopt : OptPath B bs k)
    {s : PState} (hg : GoodState B s) {j : Nat} (hj : j ≤ k)
    (hb : s.board = bs.getD j []) : j ≤ s.moves := by
  obtain ⟨hsol, hlen, hmin⟩ := hopt
  obtain ⟨hw, hh, hc⟩ := hg
  obtain ⟨hplen, -, -, -, hplast⟩ := reconstruct_path_wf s hw
  have hful : IsSolution B (reconstruct_path s ++ bs.drop (j + 1)) := by
    refine ⟨?_, ?_, ?_⟩
    · rw [List.head?_append, hh]
      rfl
    · rcases Nat.lt_or_ge (j + 1) bs.length with hlt | hge
      · obtain ⟨-, hlast, -⟩ := suffix_facts hsol hlt
        rw [List.getLast?_append, hlast]
        rfl
      · rw [List.drop_eq_nil_of_le hge, List.append_nil, hplast, hb]
        have hjk : j = k := by omega
        subst hjk
        have hgd : bs.getD (bs.length - 1) [] = goalBoard :=
          getLast?_getD ([] : Board) hsol.2.1
        rw [hlen, Nat.add_sub_cancel] at hgd
        rw [hgd]
    · rw [List.chain'_append]
      refine ⟨hc, hsol.2.2.drop (j + 1), ?_⟩
      intro u hu v hv
      rw [hplast] at hu
      simp only [Option.mem_def, Option.some.injEq] at hu
      subst hu
      rw [List.head?_drop] at hv
      have hlt : j + 1 < bs.length := by
        by_contra hge
        rw [List.getElem?_eq_none (by omega)] at hv
        simp at hv
      rw [List.getElem?_eq_getElem hlt] at hv
      simp only [Option.mem_def, Option.some.injEq] at hv
      subst hv
      rw [hb, ← List.getD_eq_getElem bs [] hlt]
      exact chain'_getD ([] : Board) hsol.2.2 hlt
  have hlb := hmin _ hful
  rw [List.length_append, hplen, List.length_drop, hlen] at hlb
  omega

/-! ## The A* optimality invariant (claim C1) -/

theorem heappop_eq_none {pq : Heap} (h : heappop pq = none) : pq = [] := by
  unfold heappop at h
  cases hl : pq.getLast? with
  | none => exact List.getLast?_eq_none_iff.mp hl
  | some e =>
    rw [hl] at h
    dsimp only at h
    split at h
    · simp at h
    · simp at h

theorem heappop_mem_self {pq rest : Heap} {e : Entry}
    (h : heappop pq = some (e, rest)) : e ∈ pq := by
  obtain ⟨hms, -⟩ := heappop_mset h
  rw [← Multiset.mem_coe, hms]
  simp

theorem heappop_mem_rest {pq rest : Heap} {e f : Entry}
    (h : heappop pq = some (e, rest)) (hf : f ∈ rest) : f ∈ pq := by
  obtain ⟨hms, -⟩ := heappop_mset h
  rw [← Multiset.mem_coe, hms]
  simp [Multiset.mem_coe, hf]

theorem heappop_mem_cases {pq rest : Heap} {e f : Entry}
    (h : heappop pq = some (e, rest)) (hf : f ∈ pq) : f = e ∨ f ∈ rest := by
  obtain ⟨hms, -⟩ := heappop_mset h
  rw [← Multiset.mem_coe, hms] at hf
  simpa using hf

theorem mem_pushNeighbors {visited : List Board} {pq : Heap} {cur : PState} {e : Entry} :
    e ∈ pushNeighbors visited pq cur ↔ e ∈ pq ∨ e ∈ pushedEntries visited cur := by
  rw [← Multiset.mem_coe, pushNeighbors_mset]
  simp [Multiset.mem_coe]

theorem pushCost_mem_pushedEntries {visited : List Board} {cur n : PState}
    (hn : n ∈ cur.neighbors) (hb : ¬ n.board ∈ visited) :
    pushCost n ∈ pushedEntries visited cur := by
  unfold pushedEntries
  exact List.mem_map_of_mem _ (List.mem_filter.mpr ⟨hn, by simpa using hb⟩)

theorem isHeap_nil : IsHeap [] := by
  intro i h1 h2
  simp at h2

theorem costOKH_nil : CostOKH [] := by
  intro e he
  simp at he

/-- A frontier entry that sits at position `j` of the fixed optimal path with
the optimal move count `j`. -/
def OptEntry (B : Board) (bs : List Board) (j : Nat) (e : Entry) : Prop :=
  GoodState B e.2 ∧ e.2.board = bs.getD j [] ∧ e.2.moves = j

/-- The optimality invariant of the search loop relative to a fixed optimal
path `bs`: the frontier is a well-costed heap of realized states, the goal is
never visited, and along `bs` a visited position is always followed either by
a visited position or by an optimally-reached frontier entry. -/
def AStarInv (B : Board) (bs : List Board) (k : Nat) (pq : Heap)
    (visited : List Board) : Prop :=
  IsHeap pq ∧ CostOKH pq ∧ (∀ e ∈ pq, GoodState B e.2) ∧
    ¬ goalBoard ∈ visited ∧
    (bs.getD 0 [] ∈ visited ∨ ∃ e ∈ pq, OptEntry B bs 0 e) ∧
    ∀ j, j < k → bs.getD j [] ∈ visited →
      bs.getD (j + 1) [] ∈ visited ∨ ∃ e ∈ pq, OptEntry B bs (j + 1) e

/-- Under the invariant, the least not-yet-visited position of the optimal
path carries an optimally-reached frontier entry. -/
theorem inv_exists_entry {B : Board} {bs : List Board} {k : Nat} {pq : Heap}
    {visited : List Board} (hgoal : bs.getD k [] = goalBoard)
    (hinv : AStarInv B bs k pq visited) :
    ∃ j, j ≤ k ∧ (∀ i, i < j → bs.getD i [] ∈ visited) ∧
      ¬ bs.getD j [] ∈ visited ∧ ∃ e ∈ pq, OptEntry B bs j e := by
  obtain ⟨-, -, -, hgv, hbase, hchain⟩ := hinv
  have hex : ∃ j, j ≤ k ∧ ¬ bs.getD j [] ∈ visited :=
    ⟨k, le_refl k, by rw [hgoal]; exact hgv⟩
  refine ⟨Nat.find hex, (Nat.find_spec hex).1, ?_, (Nat.find_spec hex).2, ?_⟩
  · intro i hi
    have hni := Nat.find_min hex hi
    have hik : i ≤ k := by
      have := (Nat.find_spec hex).1
      omega
    by_contra hiv
    exact hni ⟨hik, hiv⟩
  · cases hj : Nat.find hex with
    | zero =>
      have hnv := (Nat.find_spec hex).2
      rw [hj] at hnv
      rcases hbase with hb | hb
      · exact absurd hb hnv
      · exact hb
    | succ m =>
      have hmlt : m < Nat.find hex := by omega
      have hmv : bs.getD m [] ∈ visited := by
        have hni := Nat.find_min hex hmlt
        have hmk : m ≤ k := by
          have := (Nat.find_spec hex).1
          omega
        by_contra hmv
        exact hni ⟨hmk, hmv⟩
      have hmk : m < k := by
        have := (Nat.find_spec hex).1
        omega
      rcases hchain m hmk hmv with hv1 | he1
      · have hnv := (Nat.find_spec hex).2
        rw [hj] at hnv
        exact absurd hv1 hnv
      · exact he1

/-- First-expansion optimality: when the heap root is popped and its board
sits at position `j` of the optimal path, with an optimally-reached entry for
some earlier position `jstar` still on the frontier, the popped state's move
count is exactly `j`.  Upper bound: the root's `cost = g + h` is minimal and
the heuristic is Lipschitz along the path; lower bound: prefix optimality. -/
theorem pop_moves_eq {B : Board} {bs : List Board} {k : Nat} (hopt : OptPath B bs k)
    (hOK : ∀ i, i < bs.length → BoardOK B (bs.getD i []))
    {pq rest : Heap} {c : Int} {cur : PState}
    (hh : IsHeap pq) (hcost : CostOKH pq) (hgood : ∀ e ∈ pq, GoodState B e.2)
    (hpop : heappop pq = some ((c, cur), rest))
    {jstar j : Nat} (hjj : jstar ≤ j) (hj : j ≤ k)
    (hstar : ∃ e ∈ pq, OptEntry B bs jstar e)
    (hcb : cur.board = bs.getD j []) : cur.moves = j := by
  obtain ⟨e, he, hge, heb, hem⟩ := hstar
  have hmem : ((c, cur) : Entry) ∈ pq := heappop_mem_self hpop
  have hroot : ((c, cur) : Entry) = hget pq 0 := heappop_root hpop
  have hkey : keyLe ((c, cur) : Entry) e := by
    rw [hroot]
    exact isHeap_root_min hh e he
  have hc1 : c = (cur.moves : Int) + manhattan_distance cur := hcost _ hmem
  have hc2 : e.1 = (e.2.moves : Int) + manhattan_distance e.2 := hcost _ he
  have hm1 : manhattan_distance cur = hB (bs.getD j []) := by
    rw [manhattan_eq_hB, hcb]
  have hm2 : manhattan_distance e.2 = hB (bs.getD jstar []) := by
    rw [manhattan_eq_hB, heb]
  have hlen : bs.length = k + 1 := hopt.2.1
  have hLip : hB (bs.getD jstar []) ≤
      hB (bs.getD (jstar + (j - jstar)) []) + ((j - jstar : Nat) : Int) :=
    hB_path_le hOK hopt.1.2.2 (j - jstar) jstar (by omega)
  have hre : jstar + (j - jstar) = j := by omega
  rw [hre] at hLip
  have hup : cur.moves ≤ j := by
    rcases hkey with hlt | ⟨heq, hle⟩
    · rw [hc1, hc2, hm1, hm2, hem] at hlt
      omega
    · rw [hem] at hle
      omega
  have hgc : GoodState B cur := hgood _ hmem
  have hlo : j ≤ cur.moves := subpath_le hopt hgc hj hcb
  omega

/-- Main optimality induction: from any loop state satisfying the invariant,
whatever result the loop returns is a path of exactly `k + 1` boards. -/
theorem solveLoop_opt {B : Board} {bs : List Board} {k : Nat} (hopt : OptPath B bs k)
    (hOK : ∀ i, i < bs.length → BoardOK B (bs.getD i [])) :
    ∀ (n : Nat) (pq : Heap) (visited : List Board) (res : Option (List Board)),
      AStarInv B bs k pq visited → solveLoop n pq visited = some res →
      ∃ p, res = some p ∧ p.length = k + 1 := by
  have hlen : bs.length = k + 1 := hopt.2.1
  have hgoalk : bs.getD k [] = goalBoard := by
    have hgd := getLast?_getD ([] : Board) hopt.1.2.1
    rwa [hlen, Nat.add_sub_cancel] at hgd
  intro n
  induction n with
  | zero =>
    intro pq visited res hinv h
    exact absurd h (by simp [solveLoop])
  | succ n ih =>
    intro pq visited res hinv h
    obtain ⟨jm, hjmk, hltv, hjnv, e0, he0, hopt0⟩ := inv_exists_entry hgoalk hinv
    obtain ⟨hheap, hcost, hgood, hgv, hbase, hchain⟩ := hinv
    unfold solveLoop at h
    cases hpop : heappop pq with
    | none =>
      have hnil := heappop_eq_none hpop
      rw [hnil] at he0
      simp at he0
    | some pr =>
      obtain ⟨⟨c, cur⟩, rest⟩ := pr
      rw [hpop] at h
      dsimp only at h
      by_cases hg : cur.is_goal = true
      · rw [if_pos hg] at h
        have hres : res = some (reconstruct_path cur) := (Option.some.inj h).symm
        have hmem : ((c, cur) : Entry) ∈ pq := heappop_mem_self hpop
        have hgbd : cur.board = goalBoard := by
          simpa [PState.is_goal] using hg
        have hcb : cur.board = bs.getD k [] := by rw [hgoalk]; exact hgbd
        have hmk : cur.moves = k :=
          pop_moves_eq hopt hOK hheap hcost hgood hpop hjmk le_rfl ⟨e0, he0, hopt0⟩ hcb
        have hgc : GoodState B cur := hgood _ hmem
        have hplen : (reconstruct_path cur).length = cur.moves + 1 :=
          (reconstruct_path_wf cur hgc.1).1
        exact ⟨reconstruct_path cur, hres, by rw [hplen, hmk]⟩
      · rw [if_neg hg] at h
        have hmem : ((c, cur) : Entry) ∈ pq := heappop_mem_self hpop
        have hgc : GoodState B cur := hgood _ hmem
        have hgbd : ¬ cur.board = goalBoard := by
          simpa [PState.is_goal] using hg
        have hrest_heap : IsHeap rest := isHeap_heappop hpop hheap hcost
        have hrest_cost : CostOKH rest := costOKH_heappop hpop hcost
        obtain ⟨hheap', hcost'⟩ :=
          isHeap_pushNeighbors (visitAdd visited cur.board) cur rest hrest_heap hrest_cost
        have hgood' : ∀ e ∈ pushNeighbors (visitAdd visited cur.board) rest cur,
            GoodState B e.2 := by
          intro e he
          rcases mem_pushNeighbors.mp he with he | he
          · exact hgood _ (heappop_mem_rest hpop he)
          · obtain ⟨nb, hnb, -, rfl⟩ := pushedEntries_mem he
            exact goodState_neighbor hgc hnb
        have hgv' : ¬ goalBoard ∈ visitAdd visited cur.board := by
          rw [mem_visitAdd]
          rintro (hc1 | hc2)
          · exact hgbd hc1.symm
          · exact hgv hc2
        have hbase' : bs.getD 0 [] ∈ visitAdd visited cur.board ∨
            ∃ e ∈ pushNeighbors (visitAdd visited cur.board) rest cur, OptEntry B bs 0 e := by
          rcases hbase with hb | ⟨e, he, hoe⟩
          · exact Or.inl ((mem_visitAdd _).mpr (Or.inr hb))
          · rcases heappop_mem_cases hpop he with rfl | he
            · exact Or.inl ((mem_visitAdd _).mpr (Or.inl hoe.2.1.symm))
            · exact Or.inr ⟨e, mem_pushNeighbors.mpr (Or.inl he), hoe⟩
        have hchain' : ∀ j, j < k → bs.getD j [] ∈ visitAdd visited cur.board →
            bs.getD (j + 1) [] ∈ visitAdd visited cur.board ∨
              ∃ e ∈ pushNeighbors (visitAdd visited cur.board) rest cur,
                OptEntry B bs (j + 1) e := by
          intro j hjk hjv'
          by_cases hjv : bs.getD j [] ∈ visited
          · rcases hchain j hjk hjv with hb | ⟨e, he, hoe⟩
            · exact Or.inl ((mem_visitAdd _).mpr (Or.inr hb))
            · rcases heappop_mem_cases hpop he with rfl | he
              · exact Or.inl ((mem_visitAdd _).mpr (Or.inl hoe.2.1.symm))
              · exact Or.inr ⟨e, mem_pushNeighbors.mpr (Or.inl he), hoe⟩
          · have hjc : bs.getD j [] = cur.board := by
              rcases (mem_visitAdd _).mp hjv' with hb | hb
              · exact hb
              · exact absurd hb hjv
            have hjm_le : jm ≤ j := by
              by_contra hlt
              exact hjv (hltv j (by omega))
            have hmj : cur.moves = j :=
              pop_moves_eq hopt hOK hheap hcost hgood hpop hjm_le (by omega)
                ⟨e0, he0, hopt0⟩ hjc.symm
            have hms : MoveStep (bs.getD j []) (bs.getD (j + 1) []) :=
              chain'_getD ([] : Board) hopt.1.2.2 (by omega)
            have hmem2 : bs.getD (j + 1) [] ∈ cur.neighbors.map PState.board := by
              rw [neighbors_map_board, ← hjc]
              exact hms
            obtain ⟨nb, hnb, hnbb⟩ := List.mem_map.mp hmem2
            have hnbm : nb.moves = j + 1 := by
              rw [neighbors_moves hnb, hmj]
            by_cases hins : nb.board ∈ visitAdd visited cur.board
            · exact Or.inl (hnbb ▸ hins)
            · refine Or.inr ⟨pushCost nb,
                mem_pushNeighbors.mpr (Or.inr (pushCost_mem_pushedEntries hnb hins)), ?_⟩
              exact ⟨goodState_neighbor hgc hnb, hnbb ▸ rfl, hnbm⟩
        exact ih _ _ res ⟨hheap', hcost', hgood', hgv', hbase', hchain'⟩ h

/-- Peeling the first iteration: the seed entry `(0, initial)` does not carry
the `g + h` cost, but it is the only entry, so it is popped first; afterwards
the optimality invariant holds and `solveLoop_opt` applies. -/
theorem solveLoop_opt_start {B : Board} {bs : List Board} {k : Nat}
    (hv : validBoard B = true) (hopt : OptPath B bs k) :
    ∀ (n : Nat) (res : Option (List Board)),
      solveLoop n (initialFrontier (PState.root B 0)) [] = some res →
      ∃ p, res = some p ∧ p.length = k + 1 := by
  have hOK : ∀ i, i < bs.length → BoardOK B (bs.getD i []) :=
    solution_boardOK hv hopt.1
  have hlen : bs.length = k + 1 := hopt.2.1
  have p0B : bs.getD 0 [] = B := head?_getD ([] : Board) hopt.1.1
  intro n res h
  cases n with
  | zero => exact absurd h (by simp [solveLoop])
  | succ n =>
    have hfr : initialFrontier (PState.root B 0) = [((0 : Int), PState.root B 0)] := rfl
    have hpop : heappop [((0 : Int), PState.root B 0)] =
        some (((0 : Int), PState.root B 0), []) := rfl
    rw [hfr] at h
    unfold solveLoop at h
    rw [hpop] at h
    dsimp only at h
    by_cases hgB : (PState.root B 0).is_goal = true
    · rw [if_pos hgB] at h
      have hBg : B = goalBoard := by
        simpa [PState.is_goal, PState.board] using hgB
      subst hBg
      have hk0 : k = 0 := by
        have hsg : IsSolution goalBoard [goalBoard] := ⟨rfl, rfl, List.chain'_singleton _⟩
        have := hopt.2.2 _ hsg
        simp at this
        omega
      refine ⟨[goalBoard], (Option.some.inj h).symm, by rw [hk0]; rfl⟩
    · rw [if_neg hgB] at h
      have hBne : ¬ B = goalBoard := by
        simpa [PState.is_goal, PState.board] using hgB
      have hva : visitAdd [] (PState.root B 0).board = [B] := by
        simp [visitAdd, PState.board]
      rw [hva] at h
      have hpush := isHeap_pushNeighbors [B] (PState.root B 0) [] isHeap_nil costOKH_nil
      have hgood1 : ∀ e ∈ pushNeighbors [B] [] (PState.root B 0), GoodState B e.2 := by
        intro e he
        rcases mem_pushNeighbors.mp he with he | he
        · simp at he
        · obtain ⟨nb, hnb, -, rfl⟩ := pushedEntries_mem he
          exact goodState_neighbor (goodState_root B) hnb
      have hgv1 : ¬ goalBoard ∈ [B] := by
        simp only [List.mem_singleton]
        intro heq
        exact hBne heq.symm
      have hbase1 : bs.getD 0 [] ∈ [B] ∨
          ∃ e ∈ pushNeighbors [B] [] (PState.root B 0), OptEntry B bs 0 e := by
        rw [p0B]
        exact Or.inl (List.mem_singleton.mpr rfl)
      have hchain1 : ∀ j, j < k → bs.getD j [] ∈ [B] →
          bs.getD (j + 1) [] ∈ [B] ∨
            ∃ e ∈ pushNeighbors [B] [] (PState.root B 0), OptEntry B bs (j + 1) e := by
        intro j hjk hjv
        have hj0 : j = 0 :=
          optPath_getD_eq_start hopt (by omega) (List.mem_singleton.mp hjv)
        subst hj0
        have hp1ne : ¬ bs.getD (0 + 1) [] = B := by
          intro heq
          have h10 := optPath_getD_eq_start hopt (by omega : 0 + 1 ≤ k) heq
          omega
        have hms : MoveStep (bs.getD 0 []) (bs.getD (0 + 1) []) :=
          chain'_getD ([] : Board) hopt.1.2.2 (by omega)
        rw [p0B] at hms
        have hmem2 : bs.getD (0 + 1) [] ∈ (PState.root B 0).neighbors.map PState.board := by
          rw [neighbors_map_board]
          exact hms
        obtain ⟨nb, hnb, hnbb⟩ := List.mem_map.mp hmem2
        have hnbm : nb.moves = 0 + 1 := neighbors_moves hnb
        have hnins : ¬ nb.board ∈ [B] := by
          simp only [List.mem_singleton]
          rw [hnbb]
          exact hp1ne
        exact Or.inr ⟨pushCost nb,
          mem_pushNeighbors.mpr (Or.inr (pushCost_mem_pushedEntries hnb hnins)),
          goodState_neighbor (goodState_root B) hnb, hnbb, hnbm⟩
      exact solveLoop_opt hopt hOK n _ _ res
        ⟨hpush.1, hpush.2, hgood1, hgv1, hbase1, hchain1⟩ h

/-- The board one move away from the goal is at true distance exactly 1. -/
theorem minMoves_oneMove : MinMoves [[1, 0, 2], [3, 4, 5], [6, 7, 8]] 1 := by
  constructor
  · refine ⟨[[[1, 0, 2], [3, 4, 5], [6, 7, 8]], goalBoard], ⟨rfl, rfl, ?_⟩, rfl⟩
    rw [List.chain'_pair]
    unfold MoveStep
    decide
  · intro cs hcs
    obtain ⟨hh, hl, -⟩ := hcs
    rcases cs with _ | ⟨x, _ | ⟨y, t⟩⟩
    · simp at hh
    · simp only [List.head?_cons, Option.some.injEq] at hh
      rw [List.getLast?_singleton, Option.some.injEq] at hl
      rw [hh] at hl
      exact absurd hl (by decide)
    · simp only [List.length_cons]
      omega

/-- C1: `as_algo_solve` returns a shortest path.  For every valid board `B`
whose true minimum single-tile-move distance to the goal is `k`, running
`as_algo_solve(PuzzleState(B))` with enough fuel for the `while` loop
returns, stably for all larger fuels, a board sequence of exactly `k + 1`
entries — its length minus one is the optimal move count. -/
theorem c1_solve_optimal (B : Board) (k : Nat) (hv : validBoard B = true)
    (hk : MinMoves B k) :
    ∃ (n : Nat) (p : List Board), p.length = k + 1 ∧
      ∀ m : Nat, n ≤ m → as_algo_solve m (PState.mk' B 0 none) = some (some p) := by
  obtain ⟨⟨bs, hsol, hlenbs⟩, hmin⟩ := hk
  have hopt : OptPath B bs k := ⟨hsol, hlenbs, hmin⟩
  have hE0 : EntriesOK B [] (initialFrontier (PState.root B 0)) := by
    intro e he
    have hfr : initialFrontier (PState.root B 0) = [((0 : Int), PState.root B 0)] := rfl
    rw [hfr] at he
    simp only [List.mem_singleton] at he
    subst he
    exact ⟨Nat.le_refl 0, by simp, validBoard_boardOK hv⟩
  have hV0 : VisitedOK B [] := ⟨List.nodup_nil, by simp⟩
  obtain ⟨r, hr⟩ := solveLoop_terminates hv (phi (initialFrontier (PState.root B 0)) + 1)
    _ [] hE0 hV0 (by omega)
  obtain ⟨p, rfl, hplen⟩ := solveLoop_opt_start hv hopt _ r hr
  refine ⟨phi (initialFrontier (PState.root B 0)) + 1, p, hplen, ?_⟩
  intro m hm
  show solveLoop m (initialFrontier (PState.mk' B 0 none)) [] = some (some p)
  have hini : PState.mk' B 0 none = PState.root B 0 := rfl
  rw [hini]
  exact solveLoop_mono _ m _ _ _ hr hm

/-- C1 witness: the board one swap from the goal is valid with true distance
1, and the theorem yields a returned sequence of exactly 2 boards. -/
theorem c1_solve_optimal_witness :
    ∃ (n : Nat) (p : List Board), p.length = 1 + 1 ∧
      ∀ m : Nat, n ≤ m →
        as_algo_solve m (PState.mk' [[1, 0, 2], [3, 4, 5], [6, 7, 8]] 0 none) =
          some (some p) :=
  c1_solve_optimal [[1, 0, 2], [3, 4, 5], [6, 7, 8]] 1 (by decide) minMoves_oneMove
